import Mathlib

set_option maxHeartbeats 1000000

namespace Forum

/-- Embedding of `models.Comment` (models/models.go).  Ids and timestamps are
modelled as `Int`; `ParentID *int` becomes `Option Int` (nil = `none`). -/
structure Comment where
  id : Int
  content : String
  userId : Int
  postId : Int
  parentId : Option Int
  username : String
  createdAt : Int
  likesCount : Int
  dislikesCount : Int
deriving DecidableEq, Repr

/-- Modelled from the spec: `models.CommentTree` (the struct literal
`models.CommentTree{Comment: comment, Replies: replies}` used by
`handlers.buildCommentSubtree`; the struct declaration itself is not under
`src/`).  Per spec section 3, a CommentNode is a comment plus an ordered
sequence of child nodes. -/
inductive CommentTree where
  | mk : Comment → List CommentTree → CommentTree

/-- Projection: the comment stored at the root of a tree. -/
def CommentTree.comment : CommentTree → Comment
  | .mk c _ => c

/-- Projection: the ordered child subtrees. -/
def CommentTree.replies : CommentTree → List CommentTree
  | .mk _ rs => rs

/-- Go map assignment `m[c.ID] = c`: if the key is present the stored value is
replaced, otherwise a new entry is added.  We keep the entries as a list in
key-insertion order; Go guarantees no particular iteration order, so functions
that iterate the map are parameterised by a permutation of these values. -/
def mapInsert (m : List Comment) (c : Comment) : List Comment :=
  if m.any (fun e => e.id == c.id) then
    m.map (fun e => if e.id == c.id then c else e)
  else m ++ [c]

/-- The values of the Go map built by the first loop of
`handlers.buildCommentTree` (`commentMap[comment.ID] = comment` over the input
list), listed in key-insertion order. -/
def commentMapValues (cs : List Comment) : List Comment :=
  cs.foldl mapInsert []

/-- The loop body filter of `handlers.buildCommentSubtree`:
`c.ParentID != nil && *c.ParentID == comment.ID`, applied to the entries of the
comment map in a given iteration order. -/
def childrenOf (entries : List Comment) (pid : Int) : List Comment :=
  entries.filter (fun c =>
    match c.parentId with
    | some p => p == pid
    | none => false)

/-- Sequences a list of optional results; `none` as soon as one element is
`none`.  Used to propagate fuel exhaustion out of the recursive builder. -/
def optList {α : Type} : List (Option α) → Option (List α)
  | [] => some []
  | none :: _ => none
  | some a :: rest => (optList rest).map (a :: ·)

/-- `handlers.buildCommentSubtree`.  The Go recursion has no termination
measure of its own (it can diverge, see the duplicate-identity inputs), so the
embedding takes explicit fuel and returns `none` when the fuel runs out: a run
of the Go code terminates exactly when some finite fuel suffices.
`entries` is the comment map contents in the iteration order used by
`for _, c := range commentMap`. -/
def buildCommentSubtree : Nat → Comment → List Comment → Option CommentTree
  | 0, _, _ => none
  | fuel + 1, c, entries =>
    match optList ((childrenOf entries c.id).map
        (fun k => buildCommentSubtree fuel k entries)) with
    | some rs => some (CommentTree.mk c rs)
    | none => none

/-- The top-level comments identified by the first loop of
`handlers.buildCommentTree` (`comment.ParentID == nil`), in input order. -/
def topLevelOf (cs : List Comment) : List Comment :=
  cs.filter (fun c => c.parentId.isNone)

/-- The second loop of `handlers.buildCommentTree`: build one subtree per
top-level comment, in input order.  Parameterised by the map iteration order
`entries`. -/
def buildForest (fuel : Nat) (cs entries : List Comment) : Option (List CommentTree) :=
  optList ((topLevelOf cs).map (fun c => buildCommentSubtree fuel c entries))

/-- `handlers.buildCommentTree` with the canonical (key-insertion) iteration
order.  Fuel `cs.length + 1` is enough for every terminating run of the Go
code: a terminating expansion chain repeats no comment, so its depth is at
most the number of distinct map keys, which is at most `cs.length`. -/
def buildCommentTree (cs : List Comment) : Option (List CommentTree) :=
  buildForest (cs.length + 1) cs (commentMapValues cs)

mutual

/-- `handlers.countCommentsInTree`: sum over direct replies of one plus the
recursive count. -/
def countCommentsInTree : CommentTree → Nat
  | .mk _ rs => countRepliesList rs

/-- The loop of `handlers.countCommentsInTree` over a reply list. -/
def countRepliesList : List CommentTree → Nat
  | [] => 0
  | t :: ts => (1 + countCommentsInTree t) + countRepliesList ts

end

/-- `handlers.countTotalComments`: sum over root trees of one plus the
in-tree count (a running-total loop in Go). -/
def countTotalComments (trees : List CommentTree) : Nat :=
  trees.foldl (fun total t => total + (1 + countCommentsInTree t)) 0

mutual

/-- All comments stored in a tree, root first. -/
def treeNodes : CommentTree → List Comment
  | .mk c rs => c :: forestNodes rs

/-- All comments stored in a forest. -/
def forestNodes : List CommentTree → List Comment
  | [] => []
  | t :: ts => treeNodes t ++ forestNodes ts

end

/-- Decidable check that every non-nil parent reference points to a comment
present in the input list. -/
def parentsPresentB (cs : List Comment) : Bool :=
  cs.all (fun c =>
    match c.parentId with
    | none => true
    | some p => cs.any (fun e => e.id == p))

/-- Number of parent-pointer steps from a comment to its root, following
lookups in `entries`; `none` when the fuel runs out (a cycle) or a parent is
missing. -/
def rkOf (entries : List Comment) : Nat → Comment → Option Nat
  | 0, _ => none
  | f + 1, c =>
    match c.parentId with
    | none => some 0
    | some p =>
      match entries.find? (fun e => e.id == p) with
      | none => none
      | some q => (rkOf entries f q).map (· + 1)

/-- Decidable acyclicity of the parent references: every comment reaches a
root within `cs.length` parent steps.  A parent cycle makes this false. -/
def acyclicB (cs : List Comment) : Bool :=
  cs.all (fun c => (rkOf cs cs.length c).isSome)

/-- The chain of parent lookups from `d` passes through `c` (within the given
fuel). -/
def reachb (entries : List Comment) : Nat → Comment → Comment → Bool
  | 0, _, _ => false
  | f + 1, d, c =>
    d == c ||
      (match d.parentId with
       | none => false
       | some p =>
         match entries.find? (fun e => e.id == p) with
         | none => false
         | some q => reachb entries f q c)

/-- Iterate the parent lookup `j` times from a comment. -/
def chainIter (entries : List Comment) : Nat → Comment → Option Comment
  | 0, d => some d
  | j + 1, d =>
    match d.parentId with
    | none => none
    | some p => (entries.find? (fun e => e.id == p)).bind (chainIter entries j)

/-- Embedding of a `post_likes` row (database/database.go schema): one row per
cast vote, `is_like` is the polarity.  The surrogate id and timestamp play no
role in the vote logic and are omitted. -/
structure PostLikeRow where
  userId : Int
  postId : Int
  isLike : Bool
deriving DecidableEq, Repr

/-- Embedding of a `comment_likes` row. -/
structure CommentLikeRow where
  userId : Int
  commentId : Int
  isLike : Bool
deriving DecidableEq, Repr

/-- The `WHERE user_id = ? AND post_id = ?` condition shared by all four SQL
statements of `database.LikePost`. -/
def plMatches (userID postID : Int) (r : PostLikeRow) : Bool :=
  r.userId == userID && r.postId == postID

/-- `database.LikePost`: `SELECT is_like` for the (user, post) pair, then
insert when absent, delete when the stored polarity equals the requested one,
otherwise update the polarity.  `QueryRow` yields the first matching row;
`DELETE`/`UPDATE` affect every matching row. -/
def likePost (rows : List PostLikeRow) (userID postID : Int) (isLike : Bool) :
    List PostLikeRow :=
  match rows.find? (plMatches userID postID) with
  | none => rows ++ [⟨userID, postID, isLike⟩]
  | some r =>
    if r.isLike == isLike then
      rows.filter (fun e => !(plMatches userID postID e))
    else
      rows.map (fun e =>
        if plMatches userID postID e then ⟨e.userId, e.postId, isLike⟩ else e)

/-- The `WHERE user_id = ? AND comment_id = ?` condition shared by the SQL
statements of `database.LikeComment`. -/
def clMatches (userID commentID : Int) (r : CommentLikeRow) : Bool :=
  r.userId == userID && r.commentId == commentID

/-- `database.LikeComment`: same three-way logic as `LikePost`, over
`comment_likes`. -/
def likeComment (rows : List CommentLikeRow) (userID commentID : Int)
    (isLike : Bool) : List CommentLikeRow :=
  match rows.find? (clMatches userID commentID) with
  | none => rows ++ [⟨userID, commentID, isLike⟩]
  | some r =>
    if r.isLike == isLike then
      rows.filter (fun e => !(clMatches userID commentID e))
    else
      rows.map (fun e =>
        if clMatches userID commentID e then ⟨e.userId, e.commentId, isLike⟩ else e)

/-- The vote state of a (user, post) pair as read by the code (`QueryRow`,
first matching row): `none` = no vote, `some true` = liked,
`some false` = disliked. -/
def voteStatePost (rows : List PostLikeRow) (userID postID : Int) : Option Bool :=
  (rows.find? (plMatches userID postID)).map (·.isLike)

/-- The vote state of a (user, comment) pair. -/
def voteStateComment (rows : List CommentLikeRow) (userID commentID : Int) :
    Option Bool :=
  (rows.find? (clMatches userID commentID)).map (·.isLike)

/-- Number of `post_likes` rows for a (user, post) pair. -/
def countPostVotes (rows : List PostLikeRow) (userID postID : Int) : Nat :=
  rows.countP (plMatches userID postID)

/-- Apply a sequence of `LikePost` toggles, starting from an empty
`post_likes` table. -/
def applyPostToggles (ops : List (Int × Int × Bool)) : List PostLikeRow :=
  ops.foldl (fun rows op => likePost rows op.1 op.2.1 op.2.2) []

/-- `database.buildOrderClause`: switch on the sort key with
`p.created_at` as default column, then `ASC` exactly for `"asc"`,
otherwise `DESC`. -/
def buildOrderClause (sortBy sortOrder : String) : String :=
  let orderBy := "ORDER BY "
  let orderBy :=
    if sortBy == "date" then orderBy ++ "p.created_at"
    else if sortBy == "likes" then orderBy ++ "likes_count"
    else if sortBy == "comments" then orderBy ++ "comments_count"
    else if sortBy == "title" then orderBy ++ "p.title"
    else orderBy ++ "p.created_at"
  if sortOrder == "asc" then orderBy ++ " ASC" else orderBy ++ " DESC"

/-- Embedding of a `users` row (the columns the queries under verification
read). -/
structure UserRow where
  id : Int
  username : String
  email : String
  role : String
  status : String
deriving DecidableEq, Repr

/-- Embedding of a `posts` row. -/
structure PostRow where
  id : Int
  title : String
  content : String
  userId : Int
  categoryId : Int
  createdAt : Int
  updatedAt : Int
deriving DecidableEq, Repr

/-- Embedding of a `categories` row. -/
structure CategoryRow where
  id : Int
  name : String
deriving DecidableEq, Repr

/-- Embedding of a `comments` row. -/
structure CommentRow where
  id : Int
  content : String
  userId : Int
  postId : Int
  parentId : Option Int
  createdAt : Int
deriving DecidableEq, Repr

/-- Embedding of a `sessions` row. -/
structure SessionRow where
  id : Int
  userId : Int
  uuid : String
deriving DecidableEq, Repr

/-- The relational store: one list of rows per table. -/
structure DBState where
  users : List UserRow
  categories : List CategoryRow
  posts : List PostRow
  comments : List CommentRow
  postLikes : List PostLikeRow
  commentLikes : List CommentLikeRow
  sessions : List SessionRow
deriving DecidableEq, Repr

/-- Embedding of `models.Post` as returned by the post queries: row columns
plus joined display names and the three computed counts. -/
structure Post where
  id : Int
  title : String
  content : String
  userId : Int
  categoryId : Int
  username : String
  categoryName : String
  createdAt : Int
  updatedAt : Int
  likesCount : Int
  dislikesCount : Int
  commentsCount : Int
deriving DecidableEq, Repr

/-- Primary-key lookup in `users` (`JOIN users u ON p.user_id = u.id`; ids are
unique, so the first match is the row). -/
def findUser (db : DBState) (uid : Int) : Option UserRow :=
  db.users.find? (fun u => u.id == uid)

/-- Primary-key lookup in `categories`. -/
def findCategory (db : DBState) (cid : Int) : Option CategoryRow :=
  db.categories.find? (fun c => c.id == cid)

/-- `(SELECT COUNT(*) FROM post_likes pl WHERE pl.post_id = p.id AND pl.is_like = 1)`. -/
def postLikesCount (db : DBState) (pid : Int) : Int :=
  Int.ofNat ((db.postLikes.filter (fun l => l.postId == pid && l.isLike)).length)

/-- `(SELECT COUNT(*) FROM post_likes pl WHERE pl.post_id = p.id AND pl.is_like = 0)`. -/
def postDislikesCount (db : DBState) (pid : Int) : Int :=
  Int.ofNat ((db.postLikes.filter (fun l => l.postId == pid && !l.isLike)).length)

/-- `(SELECT COUNT(*) FROM comments cm WHERE cm.post_id = p.id)`. -/
def postCommentsCount (db : DBState) (pid : Int) : Int :=
  Int.ofNat ((db.comments.filter (fun c => c.postId == pid)).length)

/-- One output row of the shared SELECT of the post-listing queries. -/
def annotatePost (db : DBState) (p : PostRow) (u : UserRow) (c : CategoryRow) : Post :=
  ⟨p.id, p.title, p.content, p.userId, p.categoryId, u.username, c.name,
   p.createdAt, p.updatedAt,
   postLikesCount db p.id, postDislikesCount db p.id, postCommentsCount db p.id⟩

/-- The shared FROM/JOIN part of every post query: inner joins with `users`
and `categories` on the ids, with a WHERE predicate on the joined author row
(`keep`). -/
def joinedPosts (db : DBState) (keep : UserRow → Bool) : List Post :=
  db.posts.filterMap (fun p =>
    match findUser db p.userId with
    | none => none
    | some u =>
      if keep u then
        match findCategory db p.categoryId with
        | none => none
        | some c => some (annotatePost db p u c)
      else none)

/-- `ORDER BY p.created_at DESC`.  SQLite fixes no tie order, so any stable
refinement is admissible; membership facts are order-independent. -/
def sortByCreatedDesc (ps : List Post) : List Post :=
  ps.insertionSort (fun a b => b.createdAt ≤ a.createdAt)

/-- `database.GetPostsWithSuspendedFilter`: scope = all;
`WHERE u.status = 'active'` is added exactly when `showSuspended` is false. -/
def GetPostsWithSuspendedFilter (db : DBState) (showSuspended : Bool) : List Post :=
  sortByCreatedDesc (joinedPosts db (fun u => showSuspended || u.status == "active"))

/-- `database.GetPostsByCategory`: `WHERE p.category_id = ?`, no author-status
condition. -/
def GetPostsByCategory (db : DBState) (categoryID : Int) : List Post :=
  sortByCreatedDesc ((joinedPosts db (fun _ => true)).filter
    (fun q => q.categoryId == categoryID))

/-- `database.GetPostsByUser`: `WHERE p.user_id = ?`, no author-status
condition. -/
def GetPostsByUser (db : DBState) (userID : Int) : List Post :=
  sortByCreatedDesc ((joinedPosts db (fun _ => true)).filter
    (fun q => q.userId == userID))

/-- `database.GetLikedPostsByUser`: posts with an `is_like = 1` row by the
given user, no author-status condition. -/
def GetLikedPostsByUser (db : DBState) (userID : Int) : List Post :=
  sortByCreatedDesc ((joinedPosts db (fun _ => true)).filter
    (fun q => db.postLikes.any
      (fun l => l.postId == q.id && l.userId == userID && l.isLike)))

/-- A listing scope (spec section 4.1). -/
inductive Scope where
  | all : Scope
  | category : Int → Scope
  | author : Int → Scope
  | likedBy : Int → Scope

/-- The scope dispatch performed by `handlers.HomeHandler`: only the
default (all) branch passes the admin flag to the store; the other scopes
call the unfiltered queries. -/
def listPosts (db : DBState) (scope : Scope) (includeSuspended : Bool) : List Post :=
  match scope with
  | .all => GetPostsWithSuspendedFilter db includeSuspended
  | .category cid => GetPostsByCategory db cid
  | .author uid => GetPostsByUser db uid
  | .likedBy uid => GetLikedPostsByUser db uid

/-- `database.DeleteUser`: the six DELETE statements of the transaction, in
source order.  Each subquery reads the tables before they are themselves
modified, which matches reading the initial state because `posts` is only
deleted in step 4 and `comments` in step 3.  The transaction commits as a
whole; in this pure model that is the single state update. -/
def deleteUser (db : DBState) (userID : Int) : DBState :=
  let isUserPost := fun (pid : Int) =>
    db.posts.any (fun p => p.id == pid && p.userId == userID)
  let commentOnUserPost := fun (cid : Int) =>
    db.comments.any (fun c => c.id == cid && isUserPost c.postId)
  -- step 1: comment likes on comments on the user's posts, or cast by the user
  let commentLikes := db.commentLikes.filter
    (fun l => !(commentOnUserPost l.commentId || l.userId == userID))
  -- step 2: post likes on the user's posts, or cast by the user
  let postLikes := db.postLikes.filter
    (fun l => !(isUserPost l.postId || l.userId == userID))
  -- step 3: comments on the user's posts, or authored by the user
  let comments := db.comments.filter
    (fun c => !(isUserPost c.postId || c.userId == userID))
  -- step 4: the user's posts
  let posts := db.posts.filter (fun p => !(p.userId == userID))
  -- step 5: the user's sessions
  let sessions := db.sessions.filter (fun s => !(s.userId == userID))
  -- step 6: the user row
  let users := db.users.filter (fun u => !(u.id == userID))
  ⟨users, db.categories, posts, comments, postLikes, commentLikes, sessions⟩

/-- Number of `comment_likes` rows for a (user, comment) pair. -/
def countCommentVotes (rows : List CommentLikeRow) (userID commentID : Int) : Nat :=
  rows.countP (clMatches userID commentID)

/-- A comment value with the given identity and parent reference; the other
fields are irrelevant to the tree builder. -/
def mkComment (i : Int) (p : Option Int) : Comment :=
  ⟨i, "", 0, 0, p, "", 0, 0, 0⟩

/-- One root (id 1) with two replies (ids 2 and 3) supplied in that order. -/
def c2input : List Comment :=
  [mkComment 1 none, mkComment 2 (some 1), mkComment 3 (some 1)]

/-- The reversed iteration order of the same comment map: Go fixes no map
iteration order, so this order is as admissible as the insertion order. -/
def c2rev : List Comment :=
  [mkComment 3 (some 1), mkComment 2 (some 1), mkComment 1 none]

/-- Two comments sharing identity 1: a top-level one and a self-referencing
one.  The map keeps only the second, the top-level list keeps the first. -/
def c10input : List Comment :=
  [mkComment 1 none, mkComment 1 (some 1)]

/-- A two-cycle of parent references: both parents are present in the input,
yet neither comment is a top-level comment. -/
def c3cycle : List Comment :=
  [mkComment 1 (some 2), mkComment 2 (some 1)]

/-- The spec section 8 scenario: chain 1 → 2 → 3 plus the lone root 4. -/
def c3scenario : List Comment :=
  [mkComment 1 none, mkComment 2 (some 1), mkComment 3 (some 2), mkComment 4 none]

/-- Store with a suspended author (user 1) owning post 1 in category 1, and
user 2 holding a like on that post. -/
def dbC1 : DBState :=
  ⟨[⟨1, "alice", "alice@example.com", "user", "suspended"⟩,
    ⟨2, "bob", "bob@example.com", "user", "active"⟩],
   [⟨1, "general"⟩],
   [⟨1, "title1", "body1", 1, 1, 10, 10⟩],
   [], [⟨2, 1, true⟩], [], []⟩

/-- Store for the deletion scenario: user 1 authored post 1 and comment 1 (a
comment on user 2's post 2); user 2 authored post 2 and comment 2 (on post 1)
and likes comment 1. -/
def dbC9 : DBState :=
  ⟨[⟨1, "u", "u@example.com", "user", "active"⟩,
    ⟨2, "v", "v@example.com", "user", "active"⟩],
   [⟨1, "general"⟩],
   [⟨1, "postU", "", 1, 1, 0, 0⟩, ⟨2, "postV", "", 2, 1, 0, 0⟩],
   [⟨1, "by u on postV", 1, 2, none, 0⟩, ⟨2, "by v on postU", 2, 1, none, 0⟩],
   [], [⟨2, 1, true⟩],
   [⟨1, 1, "sessU"⟩, ⟨2, 2, "sessV"⟩]⟩

/-- A chain 1 ← 2 plus an orphan comment 5 whose parent 9 is absent. -/
def c4input : List Comment :=
  [mkComment 1 none, mkComment 2 (some 1), mkComment 5 (some 9)]

/-- The forest the builder produces for `c4input`: the orphan is dropped. -/
def c4forest : List CommentTree :=
  [CommentTree.mk (mkComment 1 none) [CommentTree.mk (mkComment 2 (some 1)) []]]

/-- Distinct identities with a self-referencing comment (3) and a parent
cycle (4 ↔ 5): the builder still terminates on this input. -/
def c10ok : List Comment :=
  [mkComment 1 none, mkComment 2 (some 1), mkComment 3 (some 3),
   mkComment 4 (some 5), mkComment 5 (some 4)]

theorem find?_append_left_none {α : Type} {p : α → Bool} {l₁ l₂ : List α}
    (h : l₁.find? p = none) : (l₁ ++ l₂).find? p = l₂.find? p := by
  rw [List.find?_append, h, Option.none_or]

theorem find?_map_pres {α : Type} {p : α → Bool} {f : α → α} {l : List α} {r : α}
    (hpres : ∀ x, p (f x) = p x) (h : l.find? p = some r) :
    (l.map f).find? p = some (f r) := by
  induction l with
  | nil => simp [List.find?] at h
  | cons a l ih =>
    rw [List.map_cons]
    cases hpa : p a with
    | true =>
      rw [List.find?_cons_of_pos _ hpa] at h
      rw [List.find?_cons_of_pos _ ((hpres a).trans hpa), Option.some.inj h]
    | false =>
      rw [List.find?_cons_of_neg _ (by rw [hpa]; simp)] at h
      rw [List.find?_cons_of_neg _ (by rw [hpres a, hpa]; simp)]
      exact ih h

theorem countP_map_pres {α : Type} {p : α → Bool} {f : α → α} (l : List α)
    (hpres : ∀ x, p (f x) = p x) :
    (l.map f).countP p = l.countP p := by
  rw [List.countP_map]
  exact List.countP_congr (fun x _ => by rw [Function.comp_apply, hpres x])

theorem likePost_none_case {rows : List PostLikeRow} {u pid : Int} (b : Bool)
    (h : voteStatePost rows u pid = none) :
    likePost rows u pid b = rows ++ [⟨u, pid, b⟩] ∧
    voteStatePost (likePost rows u pid b) u pid = some b ∧
    countPostVotes (likePost rows u pid b) u pid = 1 := by
  have hf : rows.find? (plMatches u pid) = none := by
    unfold voteStatePost at h
    exact (Option.map_eq_none').mp h
  have heq : likePost rows u pid b = rows ++ [⟨u, pid, b⟩] := by
    unfold likePost
    rw [hf]
  have hmatch : plMatches u pid ⟨u, pid, b⟩ = true := by
    simp [plMatches]
  refine ⟨heq, ?_, ?_⟩
  · unfold voteStatePost
    rw [heq, find?_append_left_none hf, List.find?_cons_of_pos _ hmatch]
    rfl
  · unfold countPostVotes
    rw [heq, List.countP_append]
    have h0 : rows.countP (plMatches u pid) = 0 :=
      List.countP_eq_zero.mpr (List.find?_eq_none.mp hf)
    rw [h0]
    simp [hmatch]

theorem likePost_same_case {rows : List PostLikeRow} {u pid : Int} {b : Bool}
    (h : voteStatePost rows u pid = some b) :
    likePost rows u pid b = rows.filter (fun e => !(plMatches u pid e)) ∧
    voteStatePost (likePost rows u pid b) u pid = none ∧
    countPostVotes (likePost rows u pid b) u pid = 0 := by
  obtain ⟨r, hr, hrb⟩ := (Option.map_eq_some').mp h
  have heq : likePost rows u pid b = rows.filter (fun e => !(plMatches u pid e)) := by
    simp [likePost, hr, hrb]
  have hnone : (rows.filter (fun e => !(plMatches u pid e))).find? (plMatches u pid) = none := by
    refine List.find?_eq_none.mpr (fun x hx => ?_)
    have := (List.mem_filter.mp hx).2
    simp only [Bool.not_eq_true'] at this
    simp [this]
  refine ⟨heq, ?_, ?_⟩
  · unfold voteStatePost
    rw [heq, hnone]
    rfl
  · unfold countPostVotes
    rw [heq, List.countP_filter]
    refine List.countP_eq_zero.mpr (fun a _ => ?_)
    simp

theorem likePost_flip_case {rows : List PostLikeRow} {u pid : Int} {b0 b : Bool}
    (h : voteStatePost rows u pid = some b0) (hne : b0 ≠ b) :
    voteStatePost (likePost rows u pid b) u pid = some b ∧
    countPostVotes (likePost rows u pid b) u pid = countPostVotes rows u pid := by
  obtain ⟨r, hr, hrb⟩ := (Option.map_eq_some').mp h
  have hpres : ∀ e, plMatches u pid
      (if plMatches u pid e then (⟨e.userId, e.postId, b⟩ : PostLikeRow) else e) =
      plMatches u pid e := by
    intro e
    by_cases he : plMatches u pid e = true
    · rw [if_pos he]
      simp [plMatches]
    · rw [if_neg he]
  have hcond : (r.isLike == b) = false := by
    rw [hrb]
    exact beq_eq_false_iff_ne.mpr hne
  have heq : likePost rows u pid b =
      rows.map (fun e => if plMatches u pid e then ⟨e.userId, e.postId, b⟩ else e) := by
    simp [likePost, hr, hcond]
  have hrm : plMatches u pid r = true := List.find?_some hr
  refine ⟨?_, ?_⟩
  · unfold voteStatePost
    rw [heq, find?_map_pres hpres hr, if_pos hrm]
    rfl
  · unfold countPostVotes
    rw [heq, countP_map_pres rows hpres]

theorem likeComment_none_case {rows : List CommentLikeRow} {u cid : Int} (b : Bool)
    (h : voteStateComment rows u cid = none) :
    likeComment rows u cid b = rows ++ [⟨u, cid, b⟩] ∧
    voteStateComment (likeComment rows u cid b) u cid = some b ∧
    countCommentVotes (likeComment rows u cid b) u cid = 1 := by
  have hf : rows.find? (clMatches u cid) = none := by
    unfold voteStateComment at h
    exact (Option.map_eq_none').mp h
  have heq : likeComment rows u cid b = rows ++ [⟨u, cid, b⟩] := by
    unfold likeComment
    rw [hf]
  have hmatch : clMatches u cid ⟨u, cid, b⟩ = true := by
    simp [clMatches]
  refine ⟨heq, ?_, ?_⟩
  · unfold voteStateComment
    rw [heq, find?_append_left_none hf, List.find?_cons_of_pos _ hmatch]
    rfl
  · unfold countCommentVotes
    rw [heq, List.countP_append]
    have h0 : rows.countP (clMatches u cid) = 0 :=
      List.countP_eq_zero.mpr (List.find?_eq_none.mp hf)
    rw [h0]
    simp [hmatch]

theorem likeComment_same_case {rows : List CommentLikeRow} {u cid : Int} {b : Bool}
    (h : voteStateComment rows u cid = some b) :
    likeComment rows u cid b = rows.filter (fun e => !(clMatches u cid e)) ∧
    voteStateComment (likeComment rows u cid b) u cid = none ∧
    countCommentVotes (likeComment rows u cid b) u cid = 0 := by
  obtain ⟨r, hr, hrb⟩ := (Option.map_eq_some').mp h
  have heq : likeComment rows u cid b = rows.filter (fun e => !(clMatches u cid e)) := by
    simp [likeComment, hr, hrb]
  have hnone : (rows.filter (fun e => !(clMatches u cid e))).find? (clMatches u cid) = none := by
    refine List.find?_eq_none.mpr (fun x hx => ?_)
    have := (List.mem_filter.mp hx).2
    simp only [Bool.not_eq_true'] at this
    simp [this]
  refine ⟨heq, ?_, ?_⟩
  · unfold voteStateComment
    rw [heq, hnone]
    rfl
  · unfold countCommentVotes
    rw [heq, List.countP_filter]
    refine List.countP_eq_zero.mpr (fun a _ => ?_)
    simp

theorem likeComment_flip_case {rows : List CommentLikeRow} {u cid : Int} {b0 b : Bool}
    (h : voteStateComment rows u cid = some b0) (hne : b0 ≠ b) :
    voteStateComment (likeComment rows u cid b) u cid = some b ∧
    countCommentVotes (likeComment rows u cid b) u cid = countCommentVotes rows u cid := by
  obtain ⟨r, hr, hrb⟩ := (Option.map_eq_some').mp h
  have hpres : ∀ e, clMatches u cid
      (if clMatches u cid e then (⟨e.userId, e.commentId, b⟩ : CommentLikeRow) else e) =
      clMatches u cid e := by
    intro e
    by_cases he : clMatches u cid e = true
    · rw [if_pos he]
      simp [clMatches]
    · rw [if_neg he]
  have hcond : (r.isLike == b) = false := by
    rw [hrb]
    exact beq_eq_false_iff_ne.mpr hne
  have heq : likeComment rows u cid b =
      rows.map (fun e => if clMatches u cid e then ⟨e.userId, e.commentId, b⟩ else e) := by
    simp [likeComment, hr, hcond]
  have hrm : clMatches u cid r = true := List.find?_some hr
  refine ⟨?_, ?_⟩
  · unfold voteStateComment
    rw [heq, find?_map_pres hpres hr, if_pos hrm]
    rfl
  · unfold countCommentVotes
    rw [heq, countP_map_pres rows hpres]

theorem countPostVotes_pos {rows : List PostLikeRow} {u pid : Int} {b : Bool}
    (h : voteStatePost rows u pid = some b) : 1 ≤ countPostVotes rows u pid := by
  obtain ⟨r, hr, _⟩ := (Option.map_eq_some').mp h
  exact List.countP_pos_iff.mpr ⟨r, List.mem_of_find?_eq_some hr, List.find?_some hr⟩

theorem likePost_preserves_unique {rows : List PostLikeRow} (u pid : Int) (b : Bool)
    (h : ∀ u2 p2, countPostVotes rows u2 p2 ≤ 1) :
    ∀ u2 p2, countPostVotes (likePost rows u pid b) u2 p2 ≤ 1 := by
  intro u2 p2
  cases hs : voteStatePost rows u pid with
  | none =>
    rw [(likePost_none_case b hs).1]
    unfold countPostVotes
    rw [List.countP_append]
    by_cases hm : plMatches u2 p2 (⟨u, pid, b⟩ : PostLikeRow) = true
    · have hu : u = u2 ∧ pid = p2 := by
        simpa only [plMatches, Bool.and_eq_true, beq_iff_eq] using hm
      have h0 : rows.countP (plMatches u2 p2) = 0 := by
        have hf : rows.find? (plMatches u pid) = none :=
          (Option.map_eq_none').mp hs
        rw [← hu.1, ← hu.2]
        exact List.countP_eq_zero.mpr (List.find?_eq_none.mp hf)
      simp [h0, hm]
    · simp only [Bool.not_eq_true] at hm
      simp [hm]
      exact h u2 p2
  | some b0 =>
    by_cases hsame : b0 = b
    · subst hsame
      have heq := (likePost_same_case hs).1
      rw [heq]
      unfold countPostVotes
      calc (rows.filter (fun e => !(plMatches u pid e))).countP (plMatches u2 p2)
          ≤ rows.countP (plMatches u2 p2) :=
            (List.filter_sublist rows).countP_le _
        _ ≤ 1 := h u2 p2
    · have hpres : ∀ e, plMatches u2 p2
          (if plMatches u pid e then (⟨e.userId, e.postId, b⟩ : PostLikeRow) else e) =
          plMatches u2 p2 e := by
        intro e
        by_cases he : plMatches u pid e = true
        · rw [if_pos he]
          simp [plMatches]
        · rw [if_neg he]
      obtain ⟨r, hr, hrb⟩ := (Option.map_eq_some').mp hs
      have hcond : (r.isLike == b) = false := by
        rw [hrb]
        exact beq_eq_false_iff_ne.mpr hsame
      have heq : likePost rows u pid b =
          rows.map (fun e => if plMatches u pid e then ⟨e.userId, e.postId, b⟩ else e) := by
        simp [likePost, hr, hcond]
      rw [heq]
      unfold countPostVotes
      rw [countP_map_pres rows hpres]
      exact h u2 p2

theorem applyPostToggles_unique (ops : List (Int × Int × Bool)) :
    ∀ u2 p2, countPostVotes (applyPostToggles ops) u2 p2 ≤ 1 := by
  suffices h : ∀ rows, (∀ u2 p2, countPostVotes rows u2 p2 ≤ 1) →
      ∀ u2 p2, countPostVotes
        (ops.foldl (fun rows op => likePost rows op.1 op.2.1 op.2.2) rows) u2 p2 ≤ 1 by
    refine h [] (fun u2 p2 => ?_)
    simp [countPostVotes]
  induction ops with
  | nil => exact fun rows h => h
  | cons op rest ih =>
    intro rows h
    exact ih (likePost rows op.1 op.2.1 op.2.2)
      (likePost_preserves_unique op.1 op.2.1 op.2.2 h)

/-- C5: for every user, target and requested polarity, the vote toggle
performs exactly the three-way transition — no row inserts the requested
polarity, a same-polarity row is deleted (state None), an opposite-polarity
row is updated to the requested polarity — identically for `LikePost` over
`post_likes` and `LikeComment` over `comment_likes` (assuming the schema's
at-most-one-row-per-pair uniqueness). -/
theorem likePost_likeComment_toggle_transitions
    (prows : List PostLikeRow) (crows : List CommentLikeRow)
    (u pid cid : Int) (b : Bool)
    (hp : countPostVotes prows u pid ≤ 1)
    (hc : countCommentVotes crows u cid ≤ 1) :
    (voteStatePost prows u pid = none →
      likePost prows u pid b = prows ++ [⟨u, pid, b⟩] ∧
      voteStatePost (likePost prows u pid b) u pid = some b ∧
      countPostVotes (likePost prows u pid b) u pid = 1) ∧
    (voteStatePost prows u pid = some b →
      likePost prows u pid b = prows.filter (fun e => !(plMatches u pid e)) ∧
      voteStatePost (likePost prows u pid b) u pid = none ∧
      countPostVotes (likePost prows u pid b) u pid = 0) ∧
    (voteStatePost prows u pid = some (!b) →
      voteStatePost (likePost prows u pid b) u pid = some b ∧
      countPostVotes (likePost prows u pid b) u pid = 1) ∧
    (voteStateComment crows u cid = none →
      likeComment crows u cid b = crows ++ [⟨u, cid, b⟩] ∧
      voteStateComment (likeComment crows u cid b) u cid = some b ∧
      countCommentVotes (likeComment crows u cid b) u cid = 1) ∧
    (voteStateComment crows u cid = some b →
      likeComment crows u cid b = crows.filter (fun e => !(clMatches u cid e)) ∧
      voteStateComment (likeComment crows u cid b) u cid = none ∧
      countCommentVotes (likeComment crows u cid b) u cid = 0) ∧
    (voteStateComment crows u cid = some (!b) →
      voteStateComment (likeComment crows u cid b) u cid = some b ∧
      countCommentVotes (likeComment crows u cid b) u cid = 1) := by
  refine ⟨fun h => likePost_none_case b h,
          fun h => likePost_same_case h,
          fun h => ?_,
          fun h => likeComment_none_case b h,
          fun h => likeComment_same_case h,
          fun h => ?_⟩
  · have hflip := likePost_flip_case h (show (!b) ≠ b by cases b <;> decide)
    refine ⟨hflip.1, ?_⟩
    rw [hflip.2]
    exact Nat.le_antisymm hp (countPostVotes_pos h)
  · have hflip := likeComment_flip_case h (show (!b) ≠ b by cases b <;> decide)
    refine ⟨hflip.1, ?_⟩
    rw [hflip.2]
    have hpos : 1 ≤ countCommentVotes crows u cid := by
      obtain ⟨r, hr, _⟩ := (Option.map_eq_some').mp h
      exact List.countP_pos_iff.mpr ⟨r, List.mem_of_find?_eq_some hr, List.find?_some hr⟩
    exact Nat.le_antisymm hc hpos

/-- C5 witness: concrete transitions on small tables. -/
theorem likePost_likeComment_toggle_transitions_witness :
    (likePost [] 1 7 true = [⟨1, 7, true⟩] ∧
     voteStatePost (likePost [] 1 7 true) 1 7 = some true ∧
     countPostVotes (likePost [] 1 7 true) 1 7 = 1) ∧
    (voteStateComment (likeComment [⟨1, 9, false⟩] 1 9 true) 1 9 = some true ∧
     countCommentVotes (likeComment [⟨1, 9, false⟩] 1 9 true) 1 9 = 1) := by
  have h := likePost_likeComment_toggle_transitions [] [⟨1, 9, false⟩] 1 7 9 true
    (by decide) (by decide)
  exact ⟨h.1 (by decide), h.2.2.2.2.2 (by decide)⟩

/-- C6: every `post_likes` state reachable from the empty table by a sequence
of `LikePost` toggles has at most one row per (user, post) pair, and from the
Liked state a dislike toggle leaves exactly one row for the pair with
polarity false. -/
theorem vote_row_uniqueness_invariant (ops : List (Int × Int × Bool)) (u pid : Int) :
    countPostVotes (applyPostToggles ops) u pid ≤ 1 ∧
    (voteStatePost (applyPostToggles ops) u pid = some true →
      countPostVotes (likePost (applyPostToggles ops) u pid false) u pid = 1 ∧
      voteStatePost (likePost (applyPostToggles ops) u pid false) u pid = some false) := by
  have hinv := applyPostToggles_unique ops
  refine ⟨hinv u pid, fun hl => ?_⟩
  have hflip := @likePost_flip_case (applyPostToggles ops) u pid true false hl (by decide)
  refine ⟨?_, hflip.1⟩
  rw [hflip.2]
  exact Nat.le_antisymm (hinv u pid) (countPostVotes_pos hl)

/-- C6 witness: after the toggles like(1,7), like(2,7), dislike(1,8) the
table has one row per pair, and flipping the (1,7) like to a dislike leaves
exactly one row with polarity false. -/
theorem vote_row_uniqueness_invariant_witness :
    countPostVotes (applyPostToggles [(1, 7, true), (2, 7, true), (1, 8, false)]) 1 7 ≤ 1 ∧
    countPostVotes
      (likePost (applyPostToggles [(1, 7, true), (2, 7, true), (1, 8, false)]) 1 7 false)
      1 7 = 1 ∧
    voteStatePost
      (likePost (applyPostToggles [(1, 7, true), (2, 7, true), (1, 8, false)]) 1 7 false)
      1 7 = some false := by
  have h := vote_row_uniqueness_invariant [(1, 7, true), (2, 7, true), (1, 8, false)] 1 7
  have h2 := h.2 (by decide)
  exact ⟨h.1, h2.1, h2.2⟩

/-- C7: toggling like twice on a pair with no vote row returns the table to
its original state; in particular no vote row remains for the pair. -/
theorem likePost_double_toggle_returns_none
    (rows : List PostLikeRow) (u pid : Int)
    (h : voteStatePost rows u pid = none) :
    likePost (likePost rows u pid true) u pid true = rows ∧
    countPostVotes (likePost (likePost rows u pid true) u pid true) u pid = 0 := by
  have h1 := likePost_none_case true h
  have h2 := likePost_same_case h1.2.1
  have hf : rows.find? (plMatches u pid) = none := (Option.map_eq_none').mp h
  have hall : ∀ e ∈ rows, (!(plMatches u pid e)) = true := by
    intro e he
    have := List.find?_eq_none.mp hf e he
    simp only [Bool.not_eq_true] at this
    simp [this]
  have hback : likePost (likePost rows u pid true) u pid true = rows := by
    rw [h2.1, h1.1, List.filter_append]
    rw [List.filter_eq_self.mpr hall]
    simp [plMatches]
  refine ⟨hback, ?_⟩
  rw [hback]
  unfold countPostVotes
  exact List.countP_eq_zero.mpr (List.find?_eq_none.mp hf)

/-- C7 witness: double like toggle on pair (1,7) over a table holding an
unrelated vote restores the table. -/
theorem likePost_double_toggle_returns_none_witness :
    likePost (likePost [⟨2, 3, true⟩] 1 7 true) 1 7 true = [⟨2, 3, true⟩] ∧
    countPostVotes (likePost (likePost [⟨2, 3, true⟩] 1 7 true) 1 7 true) 1 7 = 0 :=
  likePost_double_toggle_returns_none [⟨2, 3, true⟩] 1 7 (by decide)

/-- C8: `buildOrderClause` falls back to the creation-date column for every
unrecognized sort key, emits DESC for every order other than `asc` (including
absent, i.e. the empty string), and maps the four recognized keys to their
columns. -/
theorem buildOrderClause_defaults_and_columns (sortKey sortOrder : String) :
    (sortKey ≠ "date" → sortKey ≠ "likes" → sortKey ≠ "comments" → sortKey ≠ "title" →
      buildOrderClause sortKey sortOrder = buildOrderClause "date" sortOrder) ∧
    (sortOrder ≠ "asc" →
      buildOrderClause "date" sortOrder = "ORDER BY p.created_at DESC" ∧
      buildOrderClause "likes" sortOrder = "ORDER BY likes_count DESC" ∧
      buildOrderClause "comments" sortOrder = "ORDER BY comments_count DESC" ∧
      buildOrderClause "title" sortOrder = "ORDER BY p.title DESC") ∧
    (buildOrderClause "date" "asc" = "ORDER BY p.created_at ASC" ∧
     buildOrderClause "likes" "asc" = "ORDER BY likes_count ASC" ∧
     buildOrderClause "comments" "asc" = "ORDER BY comments_count ASC" ∧
     buildOrderClause "title" "asc" = "ORDER BY p.title ASC") := by
  refine ⟨fun h1 h2 h3 h4 => ?_, fun ho => ?_, ?_⟩
  · have e1 : (sortKey == "date") = false := beq_eq_false_iff_ne.mpr h1
    have e2 : (sortKey == "likes") = false := beq_eq_false_iff_ne.mpr h2
    have e3 : (sortKey == "comments") = false := beq_eq_false_iff_ne.mpr h3
    have e4 : (sortKey == "title") = false := beq_eq_false_iff_ne.mpr h4
    by_cases ho : (sortOrder == "asc") = true <;>
      simp [buildOrderClause, e1, e2, e3, e4, ho]
  · have ho' : (sortOrder == "asc") = false := beq_eq_false_iff_ne.mpr ho
    refine ⟨?_, ?_, ?_, ?_⟩ <;> simp [buildOrderClause, ho']
  · refine ⟨?_, ?_, ?_, ?_⟩ <;> decide

/-- C8 witness: the unrecognized key `size` sorts like `date`, a `desc`
order yields DESC, and recognized keys select their columns. -/
theorem buildOrderClause_defaults_and_columns_witness :
    buildOrderClause "size" "desc" = buildOrderClause "date" "desc" ∧
    buildOrderClause "date" "" = "ORDER BY p.created_at DESC" ∧
    buildOrderClause "title" "asc" = "ORDER BY p.title ASC" := by
  refine ⟨(buildOrderClause_defaults_and_columns "size" "desc").1
      (by decide) (by decide) (by decide) (by decide),
    ((buildOrderClause_defaults_and_columns "date" "").2.1 (by decide)).1,
    (buildOrderClause_defaults_and_columns "title" "asc").2.2.2.2.2⟩

/-- C1 counterexample: with `includeSuspended = false`, the by-category,
by-author and liked-by scopes still return the suspended author's post
(the corresponding queries have no status condition), while the all scope
correctly hides it. -/
theorem suspended_leak_in_non_all_scopes :
    dbC1.users.map UserRow.status = ["suspended", "active"] ∧
    (listPosts dbC1 (Scope.category 1) false).map Post.id = [1] ∧
    (listPosts dbC1 (Scope.author 1) false).map Post.id = [1] ∧
    (listPosts dbC1 (Scope.likedBy 2) false).map Post.id = [1] ∧
    (listPosts dbC1 Scope.all false).map Post.id = [] ∧
    (listPosts dbC1 Scope.all true).map Post.id = [1] := by
  decide

/-- C2: the child order produced by `buildCommentSubtree` depends on the Go
map iteration order, which the language leaves unspecified: for the same
input list, the insertion iteration order yields children `[2, 3]` while the
reversed order (a permutation of the same map values, hence an equally
admissible run) yields `[3, 2]`.  Children therefore neither follow the input
order in every run nor are deterministic across runs. -/
theorem buildCommentSubtree_map_order_dependent :
    c2rev.Perm (commentMapValues c2input) ∧
    (buildForest 4 c2input (commentMapValues c2input)).map
        (fun f => f.map (fun t => t.replies.map (fun r => r.comment.id))) =
      some [[2, 3]] ∧
    (buildForest 4 c2input c2rev).map
        (fun f => f.map (fun t => t.replies.map (fun r => r.comment.id))) =
      some [[3, 2]] := by
  refine ⟨by decide, rfl, rfl⟩

/-- C3 counterexample: a two-cycle of parent references has all parents
present in the input and distinct identities, yet the built forest is empty,
so the total count is 0 while the input size is 2. -/
theorem countTotalComments_cycle_counterexample :
    parentsPresentB c3cycle = true ∧
    (c3cycle.map Comment.id).Nodup ∧
    buildCommentTree c3cycle = some [] ∧
    countTotalComments [] ≠ c3cycle.length := by
  exact ⟨by decide, by decide, rfl, by decide⟩

/-- C9: deleting user 1 removes their comment (id 1, sitting on user 2's
post), but keeps user 2's `comment_likes` row on that very comment — a vote
on the deleted user's content survives as a dangling row referencing a
deleted comment.  The remaining tables behave as the claim states. -/
theorem deleteUser_leaves_dangling_comment_like :
    dbC9.comments.map (fun c => (c.id, c.userId)) = [(1, 1), (2, 2)] ∧
    (deleteUser dbC9 1).comments = [] ∧
    dbC9.commentLikes = [⟨2, 1, true⟩] ∧
    (deleteUser dbC9 1).commentLikes = [⟨2, 1, true⟩] ∧
    (deleteUser dbC9 1).users = [⟨2, "v", "v@example.com", "user", "active"⟩] ∧
    (deleteUser dbC9 1).posts = [⟨2, "postV", "", 2, 1, 0, 0⟩] ∧
    (deleteUser dbC9 1).sessions = [⟨2, 2, "sessV"⟩] ∧
    (deleteUser dbC9 1).postLikes = [] := by
  decide

theorem buildSubtree_c10_loop_none :
    ∀ fuel, buildCommentSubtree fuel (mkComment 1 (some 1)) [mkComment 1 (some 1)] = none := by
  intro fuel
  induction fuel with
  | zero => rfl
  | succ f ih =>
    simp only [mkComment] at ih
    simp [buildCommentSubtree, childrenOf, mkComment, optList, ih]

theorem buildSubtree_c10_root_none :
    ∀ fuel, buildCommentSubtree fuel (mkComment 1 none) [mkComment 1 (some 1)] = none := by
  intro fuel
  cases fuel with
  | zero => rfl
  | succ f =>
    have hl := buildSubtree_c10_loop_none f
    simp only [mkComment] at hl
    simp [buildCommentSubtree, childrenOf, mkComment, optList, hl]

/-- C10 counterexample: on the two-comment input whose entries share identity
1 (a top-level comment and a reply keyed over it in the map), the Go
recursion expands the reply as its own child forever: no amount of fuel makes
the builder succeed, i.e. the Go code does not terminate on this input. -/
theorem buildCommentTree_duplicate_id_divergence :
    buildCommentTree c10input = none ∧
    ¬ ∃ fuel, (buildForest fuel c10input (commentMapValues c10input)).isSome = true := by
  have hvals : commentMapValues c10input = [mkComment 1 (some 1)] := by decide
  have hforest : ∀ fuel, buildForest fuel c10input (commentMapValues c10input) = none := by
    intro fuel
    unfold buildForest
    rw [hvals]
    have htop : topLevelOf c10input = [mkComment 1 none] := by decide
    rw [htop]
    simp [optList, buildSubtree_c10_root_none fuel]
  constructor
  · exact hforest 3
  · rintro ⟨fuel, hs⟩
    rw [hforest fuel] at hs
    exact Bool.false_ne_true hs

theorem optList_forall2 {α β : Type} (f : β → Option α) :
    ∀ (l : List β) (rs : List α),
      optList (l.map f) = some rs ↔ List.Forall₂ (fun x r => f x = some r) l rs := by
  intro l
  induction l with
  | nil =>
    intro rs
    constructor
    · intro h
      have hrs : rs = [] := (Option.some.inj h).symm
      rw [hrs]
      exact List.Forall₂.nil
    · intro h
      cases h
      rfl
  | cons x l ih =>
    intro rs
    constructor
    · intro h
      cases hfx : f x with
      | none =>
        rw [List.map_cons, hfx] at h
        simp [optList] at h
      | some a =>
        rw [List.map_cons, hfx] at h
        have h2 : (optList (l.map f)).map (a :: ·) = some rs := h
        obtain ⟨rs1, hrs1, hcons⟩ := Option.map_eq_some'.mp h2
        rw [← hcons]
        exact List.Forall₂.cons hfx ((ih rs1).mp hrs1)
    · intro h
      cases h with
      | cons hxa htail =>
        rw [List.map_cons, hxa]
        show (optList (l.map f)).map _ = _
        rw [(ih _).mpr htail]
        rfl

theorem optList_isSome {α β : Type} (f : β → Option α) (l : List β)
    (h : ∀ x ∈ l, (f x).isSome = true) : ∃ rs, optList (l.map f) = some rs := by
  induction l with
  | nil => exact ⟨[], rfl⟩
  | cons x l ih =>
    obtain ⟨a, hfx⟩ := Option.isSome_iff_exists.mp (h x (List.mem_cons_self x l))
    obtain ⟨rs, hrs⟩ := ih (fun y hy => h y (List.mem_cons_of_mem x hy))
    refine ⟨a :: rs, ?_⟩
    rw [List.map_cons, hfx]
    show (optList (l.map f)).map _ = _
    rw [hrs]
    rfl

theorem buildSubtree_succ_iff {fuel : Nat} {c : Comment} {entries : List Comment}
    {t : CommentTree} :
    buildCommentSubtree (fuel + 1) c entries = some t ↔
    ∃ rs, List.Forall₂ (fun k tk => buildCommentSubtree fuel k entries = some tk)
        (childrenOf entries c.id) rs ∧ t = CommentTree.mk c rs := by
  constructor
  · intro h
    cases hopt : optList ((childrenOf entries c.id).map
        (fun k => buildCommentSubtree fuel k entries)) with
    | none =>
      have hn : buildCommentSubtree (fuel + 1) c entries = none := by
        show (match optList ((childrenOf entries c.id).map
            (fun k => buildCommentSubtree fuel k entries)) with
          | some rs => some (CommentTree.mk c rs)
          | none => none) = none
        rw [hopt]
      rw [hn] at h
      cases h
    | some rs =>
      have hs : buildCommentSubtree (fuel + 1) c entries = some (CommentTree.mk c rs) := by
        show (match optList ((childrenOf entries c.id).map
            (fun k => buildCommentSubtree fuel k entries)) with
          | some rs => some (CommentTree.mk c rs)
          | none => none) = some (CommentTree.mk c rs)
        rw [hopt]
      rw [hs] at h
      exact ⟨rs, (optList_forall2 _ _ _).mp hopt, (Option.some.inj h).symm⟩
  · rintro ⟨rs, hf2, rfl⟩
    show (match optList ((childrenOf entries c.id).map
        (fun k => buildCommentSubtree fuel k entries)) with
      | some rs => some (CommentTree.mk c rs)
      | none => none) = some (CommentTree.mk c rs)
    rw [(optList_forall2 _ _ _).mpr hf2]

theorem buildSubtree_mono :
    ∀ (f g : Nat) (c : Comment) (entries : List Comment) (t : CommentTree), f ≤ g →
      buildCommentSubtree f c entries = some t → buildCommentSubtree g c entries = some t := by
  intro f
  induction f with
  | zero =>
    intro g c entries t _ h
    simp [buildCommentSubtree] at h
  | succ f ih =>
    intro g c entries t hle h
    cases g with
    | zero => exact absurd hle (by omega)
    | succ g2 =>
      obtain ⟨rs, hf2, rfl⟩ := buildSubtree_succ_iff.mp h
      exact buildSubtree_succ_iff.mpr
        ⟨rs, hf2.imp (fun k tk hk => ih g2 k entries tk (Nat.succ_le_succ_iff.mp hle) hk), rfl⟩

theorem buildForest_mono {f g : Nat} {cs entries : List Comment}
    {forest : List CommentTree} (hle : f ≤ g)
    (h : buildForest f cs entries = some forest) :
    buildForest g cs entries = some forest := by
  unfold buildForest at h ⊢
  rw [optList_forall2] at h ⊢
  exact h.imp (fun r t ht => buildSubtree_mono f g r entries t hle ht)

theorem mapInsert_subset {m : List Comment} {c x : Comment} (h : x ∈ mapInsert m c) :
    x ∈ m ∨ x = c := by
  unfold mapInsert at h
  by_cases hany : m.any (fun e => e.id == c.id) = true
  · rw [if_pos hany] at h
    obtain ⟨e, he, hex⟩ := List.mem_map.mp h
    by_cases hid : (e.id == c.id) = true
    · rw [if_pos hid] at hex
      exact Or.inr hex.symm
    · rw [if_neg hid] at hex
      exact Or.inl (hex ▸ he)
  · rw [if_neg hany] at h
    rcases List.mem_append.mp h with h1 | h1
    · exact Or.inl h1
    · exact Or.inr (List.mem_singleton.mp h1)

theorem commentMapValues_subset (cs : List Comment) (x : Comment)
    (h : x ∈ commentMapValues cs) : x ∈ cs := by
  suffices haux : ∀ (l acc : List Comment), x ∈ l.foldl mapInsert acc → x ∈ acc ∨ x ∈ l by
    rcases haux cs [] h with h1 | h1
    · cases h1
    · exact h1
  intro l
  induction l with
  | nil => exact fun acc h => Or.inl h
  | cons c l ih =>
    intro acc h
    rw [List.foldl_cons] at h
    rcases ih (mapInsert acc c) h with h1 | h1
    · rcases mapInsert_subset h1 with h2 | h2
      · exact Or.inl h2
      · exact Or.inr (h2 ▸ List.mem_cons_self c l)
    · exact Or.inr (List.mem_cons_of_mem c h1)

theorem commentMapValues_eq_self {cs : List Comment}
    (h : (cs.map Comment.id).Nodup) : commentMapValues cs = cs := by
  suffices haux : ∀ (l acc : List Comment),
      (acc.map Comment.id ++ l.map Comment.id).Nodup →
      l.foldl mapInsert acc = acc ++ l by
    have := haux cs [] (by simpa using h)
    simpa using this
  intro l
  induction l with
  | nil =>
    intro acc _
    simp [commentMapValues]
  | cons c l ih =>
    intro acc hnd
    rw [List.foldl_cons]
    have hdisj := (List.nodup_append.mp hnd).2.2
    have hanyf : acc.any (fun e => e.id == c.id) = false := by
      rw [List.any_eq_false]
      intro e he hbeq
      have heid : e.id = c.id := by simpa using hbeq
      exact hdisj (List.mem_map_of_mem Comment.id he)
        (heid ▸ List.mem_map_of_mem Comment.id (List.mem_cons_self c l))
    have hins : mapInsert acc c = acc ++ [c] := by
      unfold mapInsert
      rw [if_neg (by rw [hanyf]; exact Bool.false_ne_true)]
    rw [hins]
    have hnd2 : ((acc ++ [c]).map Comment.id ++ l.map Comment.id).Nodup := by
      rw [List.map_append]
      rw [List.map_cons, List.append_cons] at hnd
      simpa using hnd
    rw [ih (acc ++ [c]) hnd2]
    simp

theorem id_inj_of_nodup {cs : List Comment} (h : (cs.map Comment.id).Nodup)
    {x y : Comment} (hx : x ∈ cs) (hy : y ∈ cs) (hxy : x.id = y.id) : x = y :=
  List.inj_on_of_nodup_map h hx hy hxy

theorem mem_childrenOf {entries : List Comment} {pid : Int} {k : Comment} :
    k ∈ childrenOf entries pid ↔ k ∈ entries ∧ k.parentId = some pid := by
  unfold childrenOf
  rw [List.mem_filter]
  constructor
  · rintro ⟨hm, hp⟩
    refine ⟨hm, ?_⟩
    cases hpar : k.parentId with
    | none => rw [hpar] at hp; cases hp
    | some p =>
      rw [hpar] at hp
      have hpe : p = pid := by simpa using hp
      rw [hpe]
  · rintro ⟨hm, hp⟩
    refine ⟨hm, ?_⟩
    rw [hp]
    simp

theorem chain_mem_next {α : Type} {R : α → α → Prop} :
    ∀ {l : List α}, List.Chain' R l → ∀ x ∈ l,
      (∃ h : l ≠ [], x = l.getLast h) ∨ ∃ y ∈ l.tail, R x y := by
  intro l
  induction l with
  | nil => intro _ x hx; cases hx
  | cons a l ih =>
    intro hch x hx
    cases l with
    | nil =>
      left
      have hxa : x = a := by simpa using hx
      exact ⟨by simp, by simpa [List.getLast] using hxa⟩
    | cons b l2 =>
      rw [List.chain'_cons] at hch
      rcases List.mem_cons.mp hx with rfl | hx2
      · exact Or.inr ⟨b, by simp, hch.1⟩
      · rcases ih hch.2 x hx2 with ⟨hne, hlast⟩ | ⟨y, hy, hr⟩
        · left
          refine ⟨by simp, ?_⟩
          rw [List.getLast_cons_cons]
          exact hlast
        · exact Or.inr ⟨y, List.mem_cons_of_mem b hy, hr⟩

theorem buildSubtree_terminates_aux (cs : List Comment)
    (hnd : (cs.map Comment.id).Nodup) :
    ∀ (g : Nat) (c : Comment) (anc : List Comment),
      List.Chain' (fun x y => x.parentId = some y.id) (c :: anc) →
      ((c :: anc).getLast (by simp)).parentId = none →
      (c :: anc).Nodup →
      (∀ x ∈ c :: anc, x ∈ cs) →
      cs.length + 1 ≤ g + (c :: anc).length →
      (buildCommentSubtree g c cs).isSome = true := by
  intro g
  induction g with
  | zero =>
    intro c anc _ _ hndl hsub hg
    exfalso
    have hle : (c :: anc).length ≤ cs.length :=
      (hndl.subperm (fun x hx => hsub x hx)).length_le
    simp only [List.length_cons] at hg hle
    omega
  | succ g ih =>
    intro c anc hch hlast hndl hsub hg
    have hkids : ∀ k ∈ childrenOf cs c.id, (buildCommentSubtree g k cs).isSome = true := by
      intro k hk
      obtain ⟨hkm, hkp⟩ := mem_childrenOf.mp hk
      have hknotin : k ∉ c :: anc := by
        intro hkin
        rcases chain_mem_next hch k hkin with ⟨hne, hlast2⟩ | ⟨y, hy, hr⟩
        · rw [← hlast2] at hlast
          rw [hlast] at hkp
          cases hkp
        · rw [hkp] at hr
          have hyid : c.id = y.id := Option.some.inj hr
          have hyc : y = c := id_inj_of_nodup hnd
            (hsub y (List.mem_cons_of_mem c hy)) (hsub c (List.mem_cons_self c anc))
            hyid.symm
        -- the successor of k would be c, but c heads the list: duplicate
          rw [hyc] at hy
          exact (List.nodup_cons.mp hndl).1 hy
      refine ih k (c :: anc) ?_ ?_ ?_ ?_ ?_
      · rw [List.chain'_cons]
        exact ⟨hkp, hch⟩
      · rw [List.getLast_cons_cons]
        exact hlast
      · exact List.nodup_cons.mpr ⟨hknotin, hndl⟩
      · intro x hx
        rcases List.mem_cons.mp hx with rfl | hx2
        · exact hkm
        · exact hsub x hx2
      · simp only [List.length_cons] at hg ⊢
        omega
    obtain ⟨rs, hrs⟩ := optList_isSome _ _ hkids
    have hsucc : buildCommentSubtree (g + 1) c cs = some (CommentTree.mk c rs) :=
      buildSubtree_succ_iff.mpr ⟨rs, (optList_forall2 _ _ _).mp hrs, rfl⟩
    rw [hsucc]
    rfl

/-- C10 (amended): for every input list with distinct identities — including
lists with a self-referencing comment or a parent cycle, whose members are
simply unreachable — the builder terminates: fuel `length + 1` succeeds and
all larger fuels return the same forest (the recursion depth is bounded by
the input length).  Duplicate identities, by contrast, can make the Go
recursion diverge (see the companion counterexample). -/
theorem buildCommentTree_terminates_of_nodup_ids
    (cs : List Comment) (hnd : (cs.map Comment.id).Nodup) :
    ∃ forest, buildCommentTree cs = some forest ∧
      ∀ fuel, cs.length + 1 ≤ fuel →
        buildForest fuel cs (commentMapValues cs) = some forest := by
  have hvals := commentMapValues_eq_self hnd
  have hroots : ∀ r ∈ topLevelOf cs,
      (buildCommentSubtree (cs.length + 1) r cs).isSome = true := by
    intro r hr
    obtain ⟨hrm, hrp⟩ := List.mem_filter.mp hr
    refine buildSubtree_terminates_aux cs hnd (cs.length + 1) r []
      (List.chain'_singleton r) ?_ (by simp) ?_ (by simp)
    · simpa [List.getLast] using Option.isNone_iff_eq_none.mp hrp
    · intro x hx
      rcases List.mem_singleton.mp hx with rfl
      exact hrm
  obtain ⟨forest, hforest⟩ := optList_isSome _ _ hroots
  refine ⟨forest, ?_, ?_⟩
  · unfold buildCommentTree buildForest
    rw [hvals]
    exact hforest
  · intro fuel hfuel
    rw [hvals]
    refine buildForest_mono hfuel ?_
    unfold buildForest
    exact hforest

/-- C10 witness: the builder terminates on a five-comment input with distinct
identities containing both a self-reference and a two-cycle. -/
theorem buildCommentTree_terminates_of_nodup_ids_witness :
    (buildCommentTree c10ok).isSome = true := by
  obtain ⟨forest, hf, _⟩ := buildCommentTree_terminates_of_nodup_ids c10ok (by decide)
  rw [hf]
  rfl

theorem forall2_exists_left {α β : Type} {R : α → β → Prop} :
    ∀ {l : List α} {rs : List β}, List.Forall₂ R l rs → ∀ b ∈ rs, ∃ a ∈ l, R a b := by
  intro l rs h
  induction h with
  | nil => intro b hb; cases hb
  | cons hab htail ih =>
    intro b hb
    rcases List.mem_cons.mp hb with rfl | hb2
    · exact ⟨_, List.mem_cons_self _ _, hab⟩
    · obtain ⟨a, ha, har⟩ := ih b hb2
      exact ⟨a, List.mem_cons_of_mem _ ha, har⟩

theorem buildSubtree_comment {fuel : Nat} {c : Comment} {entries : List Comment}
    {t : CommentTree} (h : buildCommentSubtree fuel c entries = some t) :
    t.comment = c := by
  cases fuel with
  | zero => simp [buildCommentSubtree] at h
  | succ f =>
    obtain ⟨rs, _, rfl⟩ := buildSubtree_succ_iff.mp h
    rfl

theorem forall2_build_map_comment {fuel : Nat} {entries : List Comment} :
    ∀ {l : List Comment} {forest : List CommentTree},
      List.Forall₂ (fun c t => buildCommentSubtree fuel c entries = some t) l forest →
      forest.map CommentTree.comment = l := by
  intro l forest h
  induction h with
  | nil => rfl
  | cons hab htail ih =>
    rw [List.map_cons, ih, buildSubtree_comment hab]

theorem mem_forestNodes {d : Comment} :
    ∀ {ts : List CommentTree}, d ∈ forestNodes ts ↔ ∃ t ∈ ts, d ∈ treeNodes t := by
  intro ts
  induction ts with
  | nil => simp [forestNodes]
  | cons t ts ih =>
    simp only [forestNodes, List.mem_append, ih, List.mem_cons]
    constructor
    · rintro (h | ⟨t2, ht2, hd⟩)
      · exact ⟨t, Or.inl rfl, h⟩
      · exact ⟨t2, Or.inr ht2, hd⟩
    · rintro ⟨t2, (rfl | ht2), hd⟩
      · exact Or.inl hd
      · exact Or.inr ⟨t2, ht2, hd⟩

theorem subtree_child_nodes {entries : List Comment} :
    ∀ (fuel : Nat) (c : Comment) (t : CommentTree),
      buildCommentSubtree fuel c entries = some t →
      ∀ d ∈ forestNodes t.replies,
        d ∈ entries ∧ ∃ q, (q = c ∨ q ∈ entries) ∧ d.parentId = some q.id := by
  intro fuel
  induction fuel with
  | zero => intro c t h; simp [buildCommentSubtree] at h
  | succ f ih =>
    intro c t h d hd
    obtain ⟨rs, hf2, rfl⟩ := buildSubtree_succ_iff.mp h
    have hd2 : d ∈ forestNodes rs := hd
    obtain ⟨tk, htk, hdtk⟩ := mem_forestNodes.mp hd2
    obtain ⟨k, hk, hbuild⟩ := forall2_exists_left hf2 tk htk
    obtain ⟨hkm, hkp⟩ := mem_childrenOf.mp hk
    cases tk with
    | mk kc krs =>
      have hkc : kc = k := buildSubtree_comment hbuild
      subst hkc
      rcases (show d = kc ∨ d ∈ forestNodes krs by simpa [treeNodes] using hdtk)
        with rfl | hdeep
      · exact ⟨hkm, c, Or.inl rfl, hkp⟩
      · obtain ⟨hde, q, hq, hdp⟩ :=
          ih kc (CommentTree.mk kc krs) hbuild d (by simpa [CommentTree.replies] using hdeep)
        refine ⟨hde, q, ?_, hdp⟩
        rcases hq with rfl | hq2
        · exact Or.inr hkm
        · exact Or.inr hq2

/-- C4: for every input list, if the builder produces a forest then (a) the
roots of the forest are exactly the comments with an absent parent reference,
in input order; (b) a comment with an absent parent reference never appears
at a child position; (c) a comment whose declared parent identity is not the
identity of any input comment appears nowhere in the forest (it is silently
dropped — neither promoted to root nor attached as a child). -/
theorem buildCommentTree_roots_iff_and_orphans_dropped
    (cs : List Comment) (forest : List CommentTree)
    (hb : buildCommentTree cs = some forest) :
    forest.map CommentTree.comment = cs.filter (fun c => c.parentId.isNone) ∧
    (∀ c : Comment, c.parentId = none → ∀ t ∈ forest, c ∉ forestNodes t.replies) ∧
    (∀ c ∈ cs, ∀ p, c.parentId = some p → (∀ e ∈ cs, e.id ≠ p) →
      ∀ t ∈ forest, c ∉ treeNodes t) := by
  unfold buildCommentTree buildForest at hb
  rw [optList_forall2] at hb
  refine ⟨forall2_build_map_comment hb, ?_, ?_⟩
  · intro c hcn t ht hmem
    obtain ⟨r, _, hbuild⟩ := forall2_exists_left hb t ht
    obtain ⟨_, q, _, hdp⟩ := subtree_child_nodes _ r t hbuild c hmem
    rw [hcn] at hdp
    cases hdp
  · intro c hc p hp hids t ht hmem
    obtain ⟨r, hr, hbuild⟩ := forall2_exists_left hb t ht
    cases t with
    | mk rc rrs =>
      have hrc : rc = r := buildSubtree_comment hbuild
      subst hrc
      rcases (show c = rc ∨ c ∈ forestNodes rrs by simpa [treeNodes] using hmem)
        with rfl | hdeep
      · have hnone := (List.mem_filter.mp hr).2
        rw [Option.isNone_iff_eq_none] at hnone
        rw [hp] at hnone
        cases hnone
      · obtain ⟨_, q, hq, hdp⟩ := subtree_child_nodes _ rc (CommentTree.mk rc rrs) hbuild c
          (by simpa [CommentTree.replies] using hdeep)
        rw [hp] at hdp
        have hqid : q.id = p := (Option.some.inj hdp).symm
        have hqcs : q ∈ cs := by
          rcases hq with rfl | hq2
          · exact (List.mem_filter.mp hr).1
          · exact commentMapValues_subset cs q hq2
        exact hids q hqcs hqid

/-- C4 witness: on the chain-plus-orphan input the roots are exactly the
parent-less comments and the orphan (parent identity 9 absent) appears
nowhere in the forest. -/
theorem buildCommentTree_roots_iff_and_orphans_dropped_witness :
    c4forest.map CommentTree.comment = c4input.filter (fun c => c.parentId.isNone) ∧
    mkComment 5 (some 9) ∉
      treeNodes (CommentTree.mk (mkComment 1 none) [CommentTree.mk (mkComment 2 (some 1)) []]) := by
  have h := buildCommentTree_roots_iff_and_orphans_dropped c4input c4forest rfl
  refine ⟨h.1, ?_⟩
  exact h.2.2 (mkComment 5 (some 9)) (by decide) 9 rfl (by decide)
    (CommentTree.mk (mkComment 1 none) [CommentTree.mk (mkComment 2 (some 1)) []])
    (List.mem_singleton_self _)

theorem rkOf_succ (entries : List Comment) (f : Nat) (c : Comment) :
    rkOf entries (f + 1) c =
      (match c.parentId with
       | none => some 0
       | some p =>
         match entries.find? (fun e => e.id == p) with
         | none => none
         | some q => (rkOf entries f q).map (· + 1)) := rfl

theorem rkOf_none {entries : List Comment} {c : Comment} (f : Nat)
    (hp : c.parentId = none) : rkOf entries (f + 1) c = some 0 := by
  rw [rkOf_succ, hp]

theorem rkOf_orphan {entries : List Comment} {c : Comment} {p : Int} (f : Nat)
    (hp : c.parentId = some p)
    (hq : entries.find? (fun e => e.id == p) = none) :
    rkOf entries (f + 1) c = none := by
  rw [rkOf_succ, hp]
  show (match entries.find? (fun e => e.id == p) with
        | none => none
        | some q => (rkOf entries f q).map (· + 1)) = none
  rw [hq]

theorem rkOf_step {entries : List Comment} {c q : Comment} {p : Int} (f : Nat)
    (hp : c.parentId = some p)
    (hq : entries.find? (fun e => e.id == p) = some q) :
    rkOf entries (f + 1) c = (rkOf entries f q).map (· + 1) := by
  rw [rkOf_succ, hp]
  show (match entries.find? (fun e => e.id == p) with
        | none => none
        | some q => (rkOf entries f q).map (· + 1)) =
      (rkOf entries f q).map (· + 1)
  rw [hq]

theorem reachb_none {entries : List Comment} {d : Comment} (f : Nat) (c : Comment)
    (hp : d.parentId = none) : reachb entries (f + 1) d c = (d == c) := by
  show (d == c ||
      (match d.parentId with
       | none => false
       | some p =>
         match entries.find? (fun e => e.id == p) with
         | none => false
         | some q => reachb entries f q c)) = (d == c)
  rw [hp]
  exact Bool.or_false _

theorem reachb_step {entries : List Comment} {d q : Comment} {p : Int} (f : Nat)
    (c : Comment) (hp : d.parentId = some p)
    (hq : entries.find? (fun e => e.id == p) = some q) :
    reachb entries (f + 1) d c = (d == c || reachb entries f q c) := by
  show (d == c ||
      (match d.parentId with
       | none => false
       | some p =>
         match entries.find? (fun e => e.id == p) with
         | none => false
         | some q => reachb entries f q c)) = (d == c || reachb entries f q c)
  rw [hp]
  show (d == c ||
      (match entries.find? (fun e => e.id == p) with
       | none => false
       | some q => reachb entries f q c)) = (d == c || reachb entries f q c)
  rw [hq]

theorem chainIter_none {entries : List Comment} {d : Comment} (j : Nat)
    (hp : d.parentId = none) : chainIter entries (j + 1) d = none := by
  show (match d.parentId with
        | none => none
        | some p => (entries.find? (fun e => e.id == p)).bind (chainIter entries j)) = none
  rw [hp]

theorem chainIter_step {entries : List Comment} {d q : Comment} {p : Int} (j : Nat)
    (hp : d.parentId = some p)
    (hq : entries.find? (fun e => e.id == p) = some q) :
    chainIter entries (j + 1) d = chainIter entries j q := by
  show (match d.parentId with
        | none => none
        | some p => (entries.find? (fun e => e.id == p)).bind (chainIter entries j)) =
      chainIter entries j q
  rw [hp]
  show (entries.find? (fun e => e.id == p)).bind (chainIter entries j) = chainIter entries j q
  rw [hq]
  rfl

theorem rkOf_lt {entries : List Comment} :
    ∀ {f : Nat} {c : Comment} {r : Nat}, rkOf entries f c = some r → r < f := by
  intro f
  induction f with
  | zero => intro c r h; simp [rkOf] at h
  | succ f ih =>
    intro c r h
    cases hp : c.parentId with
    | none =>
      rw [rkOf_none f hp] at h
      have h0 : (0 : Nat) = r := Option.some.inj h
      omega
    | some p =>
      cases hq : entries.find? (fun e => e.id == p) with
      | none => rw [rkOf_orphan f hp hq] at h; cases h
      | some q =>
        rw [rkOf_step f hp hq] at h
        obtain ⟨r2, hr2, hplus⟩ := Option.map_eq_some'.mp h
        have := ih hr2
        omega

theorem rkOf_stable {entries : List Comment} :
    ∀ {f : Nat} {c : Comment} {r : Nat}, rkOf entries f c = some r →
      ∀ {g : Nat}, r + 1 ≤ g → rkOf entries g c = some r := by
  intro f
  induction f with
  | zero => intro c r h; simp [rkOf] at h
  | succ f ih =>
    intro c r h g hg
    cases g with
    | zero => exact absurd hg (by omega)
    | succ g2 =>
      cases hp : c.parentId with
      | none =>
        rw [rkOf_none f hp] at h
        rw [rkOf_none g2 hp]
        exact h
      | some p =>
        cases hq : entries.find? (fun e => e.id == p) with
        | none => rw [rkOf_orphan f hp hq] at h; cases h
        | some q =>
          rw [rkOf_step f hp hq] at h
          rw [rkOf_step g2 hp hq]
          obtain ⟨r2, hr2, hplus⟩ := Option.map_eq_some'.mp h
          have hr2g : rkOf entries g2 q = some r2 := ih hr2 (by omega)
          rw [hr2g, ← hplus]
          rfl

theorem rkOf_unique {entries : List Comment} {f1 f2 : Nat} {c : Comment} {r1 r2 : Nat}
    (h1 : rkOf entries f1 c = some r1) (h2 : rkOf entries f2 c = some r2) : r1 = r2 := by
  have s1 : rkOf entries (r1 + r2 + 1) c = some r1 := rkOf_stable h1 (by omega)
  have s2 : rkOf entries (r1 + r2 + 1) c = some r2 := rkOf_stable h2 (by omega)
  rw [s1] at s2
  exact Option.some.inj s2

theorem find?_id_self {cs : List Comment} (hnd : (cs.map Comment.id).Nodup)
    {c : Comment} (hc : c ∈ cs) : cs.find? (fun e => e.id == c.id) = some c := by
  cases hf : cs.find? (fun e => e.id == c.id) with
  | none =>
    have := List.find?_eq_none.mp hf c hc
    simp at this
  | some e =>
    have he := List.mem_of_find?_eq_some hf
    have heq : e.id = c.id := by
      have := List.find?_some hf
      simpa using this
    rw [id_inj_of_nodup hnd he hc heq]

theorem child_rank {cs : List Comment} (hnd : (cs.map Comment.id).Nodup)
    {c k : Comment} {r : Nat} (hc : c ∈ cs)
    (hkp : k.parentId = some c.id)
    (hr : rkOf cs cs.length c = some r)
    (hky : (rkOf cs cs.length k).isSome = true) :
    rkOf cs cs.length k = some (r + 1) := by
  have hstep : rkOf cs (cs.length + 1) k = some (r + 1) := by
    rw [rkOf_step cs.length hkp (find?_id_self hnd hc), hr]
    rfl
  obtain ⟨rk, hrk⟩ := Option.isSome_iff_exists.mp hky
  rw [hrk]
  rw [rkOf_unique hrk hstep]

theorem reach_self {entries : List Comment} {f : Nat} (d c : Comment) (hdc : d = c) :
    reachb entries (f + 1) d c = true := by
  show (d == c ||
      (match d.parentId with
       | none => false
       | some p =>
         match entries.find? (fun e => e.id == p) with
         | none => false
         | some q => reachb entries f q c)) = true
  rw [hdc]
  simp

theorem rkOf_parent_ne_zero {entries : List Comment} {c : Comment} {p : Int} {f r : Nat}
    (hp : c.parentId = some p) (h : rkOf entries f c = some r) :
    ∃ q r2, entries.find? (fun e => e.id == p) = some q ∧
      rkOf entries (f - 1) q = some r2 ∧ r = r2 + 1 := by
  cases f with
  | zero => simp [rkOf] at h
  | succ f2 =>
    cases hq : entries.find? (fun e => e.id == p) with
    | none => rw [rkOf_orphan f2 hp hq] at h; cases h
    | some q =>
      rw [rkOf_step f2 hp hq] at h
      obtain ⟨r2, hr2, hplus⟩ := Option.map_eq_some'.mp h
      refine ⟨q, r2, rfl, ?_, ?_⟩
      · simpa using hr2
      · omega

theorem reach_stable {cs : List Comment} :
    ∀ {rd : Nat} {d : Comment}, rkOf cs cs.length d = some rd →
      ∀ (c : Comment) {f1 f2 : Nat}, rd + 1 ≤ f1 → rd + 1 ≤ f2 →
        reachb cs f1 d c = reachb cs f2 d c := by
  intro rd
  induction rd with
  | zero =>
    intro d hd c f1 f2 h1 h2
    have hp : d.parentId = none := by
      cases hpp : d.parentId with
      | none => rfl
      | some p =>
        obtain ⟨q, r2, _, _, habs⟩ := rkOf_parent_ne_zero hpp hd
        omega
    cases f1 with
    | zero => exact absurd h1 (by omega)
    | succ f1b =>
      cases f2 with
      | zero => exact absurd h2 (by omega)
      | succ f2b =>
        rw [reachb_none f1b c hp, reachb_none f2b c hp]
  | succ r ih =>
    intro d hd c f1 f2 h1 h2
    cases hpp : d.parentId with
    | none =>
      cases hn : cs.length with
      | zero => rw [hn] at hd; simp [rkOf] at hd
      | succ n =>
        rw [hn, rkOf_none n hpp] at hd
        have := Option.some.inj hd
        omega
    | some p =>
      obtain ⟨q, r2, hq, hr2, hplus⟩ := rkOf_parent_ne_zero hpp hd
      have hr2r : r2 = r := by omega
      have hqN : rkOf cs cs.length q = some r := by
        rw [← hr2r]
        exact rkOf_stable hr2 (by have := rkOf_lt hr2; omega)
      cases f1 with
      | zero => exact absurd h1 (by omega)
      | succ f1b =>
        cases f2 with
        | zero => exact absurd h2 (by omega)
        | succ f2b =>
          rw [reachb_step f1b c hpp hq, reachb_step f2b c hpp hq]
          have hrec := @ih q hqN c f1b f2b (by omega) (by omega)
          rw [hrec]

theorem reach_or_right {entries : List Comment} {d q c : Comment} {p : Int} {f : Nat}
    (hp : d.parentId = some p)
    (hq : entries.find? (fun e => e.id == p) = some q)
    (h : reachb entries f q c = true) :
    reachb entries (f + 1) d c = true := by
  rw [reachb_step f c hp hq, h]
  exact Bool.or_true _

theorem reach_extend {cs : List Comment} (hnd : (cs.map Comment.id).Nodup)
    {c k : Comment} (hc : c ∈ cs) (hkp : k.parentId = some c.id) :
    ∀ {rd : Nat} {d : Comment}, rkOf cs cs.length d = some rd →
      reachb cs (cs.length + 1) d k = true →
      reachb cs (cs.length + 1) d c = true := by
  have hN : 1 ≤ cs.length := List.length_pos.mpr (List.ne_nil_of_mem hc)
  intro rd
  induction rd with
  | zero =>
    intro d hd hr
    have hp : d.parentId = none := by
      cases hpp : d.parentId with
      | none => rfl
      | some p =>
        obtain ⟨q, r2, _, _, habs⟩ := rkOf_parent_ne_zero hpp hd
        omega
    rw [reachb_none cs.length k hp] at hr
    have hdk : d = k := by simpa using hr
    rw [hdk, hkp] at hp
    cases hp
  | succ r ih =>
    intro d hd hr
    cases hpp : d.parentId with
    | none =>
      obtain ⟨n, hn⟩ : ∃ n, cs.length = n + 1 := ⟨cs.length - 1, by omega⟩
      rw [hn, rkOf_none n hpp] at hd
      have := Option.some.inj hd
      omega
    | some p =>
      obtain ⟨q, r2, hq, hr2, hplus⟩ := rkOf_parent_ne_zero hpp hd
      have hr2r : r2 = r := by omega
      have hqN : rkOf cs cs.length q = some r := by
        rw [← hr2r]
        exact rkOf_stable hr2 (by have := rkOf_lt hr2; omega)
      rw [reachb_step cs.length k hpp hq] at hr
      rcases (Bool.or_eq_true _ _).mp hr with hdk | hstep
      · -- d = k, so its parent is c and q = c
        have hdk2 : d = k := by simpa using hdk
        have hpc : p = c.id := by
          rw [hdk2, hkp] at hpp
          exact (Option.some.inj hpp).symm
        have hqc : q = c := by
          rw [hpc, find?_id_self hnd hc] at hq
          exact (Option.some.inj hq).symm
        refine reach_or_right hpp hq ?_
        rw [hqc]
        obtain ⟨n, hn⟩ : ∃ n, cs.length = n + 1 := ⟨cs.length - 1, by omega⟩
        rw [hn]
        exact reach_self c c rfl
      · -- the chain continues through q
        have hrlt := rkOf_lt hqN
        have hstab := @reach_stable cs r q hqN k cs.length (cs.length + 1)
          (by omega) (by omega)
        have hqk : reachb cs (cs.length + 1) q k = true := by
          rw [← hstab]
          exact hstep
        have hqc := ih hqN hqk
        refine reach_or_right hpp hq ?_
        have hstab2 := @reach_stable cs r q hqN c cs.length (cs.length + 1)
          (by omega) (by omega)
        rw [hstab2]
        exact hqc

theorem reach_split {cs : List Comment} (hnd : (cs.map Comment.id).Nodup)
    {c : Comment} (hc : c ∈ cs) :
    ∀ {rd : Nat} {d : Comment}, d ∈ cs → rkOf cs cs.length d = some rd →
      reachb cs (cs.length + 1) d c = true → d ≠ c →
      ∃ k, k ∈ childrenOf cs c.id ∧ reachb cs (cs.length + 1) d k = true := by
  have hN : 1 ≤ cs.length := List.length_pos.mpr (List.ne_nil_of_mem hc)
  intro rd
  induction rd with
  | zero =>
    intro d hdm hd hr hne
    have hp : d.parentId = none := by
      cases hpp : d.parentId with
      | none => rfl
      | some p =>
        obtain ⟨q, r2, _, _, habs⟩ := rkOf_parent_ne_zero hpp hd
        omega
    rw [reachb_none cs.length c hp] at hr
    exact absurd (by simpa using hr) hne
  | succ r ih =>
    intro d hdm hd hr hne
    cases hpp : d.parentId with
    | none =>
      obtain ⟨n, hn⟩ : ∃ n, cs.length = n + 1 := ⟨cs.length - 1, by omega⟩
      rw [hn, rkOf_none n hpp] at hd
      have := Option.some.inj hd
      omega
    | some p =>
      obtain ⟨q, r2, hq, hr2, hplus⟩ := rkOf_parent_ne_zero hpp hd
      have hr2r : r2 = r := by omega
      have hqN : rkOf cs cs.length q = some r := by
        rw [← hr2r]
        exact rkOf_stable hr2 (by have := rkOf_lt hr2; omega)
      have hrlt := rkOf_lt hqN
      rw [reachb_step cs.length c hpp hq] at hr
      rcases (Bool.or_eq_true _ _).mp hr with hdc | hstep
      · exact absurd (by simpa using hdc) hne
      · have hqm : q ∈ cs := List.mem_of_find?_eq_some hq
        by_cases hqceq : q = c
        · -- d is itself a child of c
          have hpc : p = c.id := by
            have := List.find?_some hq
            have hqp : q.id = p := by simpa using this
            rw [← hqp, hqceq]
          refine ⟨d, mem_childrenOf.mpr ⟨hdm, by rw [hpp, hpc]⟩, ?_⟩
          obtain ⟨n, hn⟩ : ∃ n, cs.length + 1 = n + 1 := ⟨cs.length, rfl⟩
          rw [hn]
          exact reach_self d d rfl
        · have hstab := @reach_stable cs r q hqN c cs.length (cs.length + 1)
            (by omega) (by omega)
          have hqc : reachb cs (cs.length + 1) q c = true := by
            rw [← hstab]
            exact hstep
          obtain ⟨k, hk, hqk⟩ := ih hqm hqN hqc hqceq
          refine ⟨k, hk, reach_or_right hpp hq ?_⟩
          have hstab2 := @reach_stable cs r q hqN k cs.length (cs.length + 1)
            (by omega) (by omega)
          rw [hstab2]
          exact hqk

theorem reach_chain {cs : List Comment} :
    ∀ {rd : Nat} {d : Comment}, rkOf cs cs.length d = some rd →
      ∀ {x : Comment}, reachb cs (cs.length + 1) d x = true →
      ∃ rx, rkOf cs cs.length x = some rx ∧ rx ≤ rd ∧
        chainIter cs (rd - rx) d = some x := by
  intro rd
  induction rd with
  | zero =>
    intro d hd x hr
    have hp : d.parentId = none := by
      cases hpp : d.parentId with
      | none => rfl
      | some p =>
        obtain ⟨q, r2, _, _, habs⟩ := rkOf_parent_ne_zero hpp hd
        omega
    rw [reachb_none cs.length x hp] at hr
    have hdx : d = x := by simpa using hr
    exact ⟨0, hdx ▸ hd, Nat.le_refl 0, by rw [← hdx]; rfl⟩
  | succ r ih =>
    intro d hd x hr
    obtain ⟨n, hn⟩ : ∃ n, cs.length + 1 = n + 1 := ⟨cs.length, rfl⟩
    cases hpp : d.parentId with
    | none =>
      obtain ⟨m, hm⟩ : ∃ m, cs.length = m + 1 := by
        cases hml : cs.length with
        | zero => rw [hml] at hd; simp [rkOf] at hd
        | succ m => exact ⟨m, rfl⟩
      rw [hm, rkOf_none m hpp] at hd
      have := Option.some.inj hd
      omega
    | some p =>
      obtain ⟨q, r2, hq, hr2, hplus⟩ := rkOf_parent_ne_zero hpp hd
      have hr2r : r2 = r := by omega
      have hqN : rkOf cs cs.length q = some r := by
        rw [← hr2r]
        exact rkOf_stable hr2 (by have := rkOf_lt hr2; omega)
      have hrlt := rkOf_lt hqN
      rw [reachb_step cs.length x hpp hq] at hr
      rcases (Bool.or_eq_true _ _).mp hr with hdx | hstep
      · have hdx2 : d = x := by simpa using hdx
        exact ⟨r + 1, hdx2 ▸ hd, Nat.le_refl _, by rw [Nat.sub_self, ← hdx2]; rfl⟩
      · have hstab := @reach_stable cs r q hqN x cs.length (cs.length + 1)
          (by omega) (by omega)
        have hqx : reachb cs (cs.length + 1) q x = true := by
          rw [← hstab]
          exact hstep
        obtain ⟨rx, hrx, hle, hchain⟩ := ih hqN hqx
        refine ⟨rx, hrx, by omega, ?_⟩
        rw [show r + 1 - rx = (r - rx) + 1 by omega, chainIter_step (r - rx) hpp hq]
        exact hchain

theorem reach_rank_le {cs : List Comment} {rd rx : Nat} {d x : Comment}
    (hd : rkOf cs cs.length d = some rd)
    (hx : rkOf cs cs.length x = some rx)
    (hr : reachb cs (cs.length + 1) d x = true) : rx ≤ rd := by
  obtain ⟨rx2, hrx2, hle, _⟩ := reach_chain hd hr
  rw [rkOf_unique hx hrx2]
  exact hle

theorem reach_child_unique {cs : List Comment} (hnd : (cs.map Comment.id).Nodup)
    {c k1 k2 d : Comment} {rc rd : Nat} (hc : c ∈ cs)
    (hk1 : k1 ∈ childrenOf cs c.id) (hk2 : k2 ∈ childrenOf cs c.id)
    (hrc : rkOf cs cs.length c = some rc)
    (hacy : ∀ x ∈ cs, (rkOf cs cs.length x).isSome = true)
    (hd : rkOf cs cs.length d = some rd)
    (h1 : reachb cs (cs.length + 1) d k1 = true)
    (h2 : reachb cs (cs.length + 1) d k2 = true) : k1 = k2 := by
  obtain ⟨hk1m, hk1p⟩ := mem_childrenOf.mp hk1
  obtain ⟨hk2m, hk2p⟩ := mem_childrenOf.mp hk2
  have hr1 : rkOf cs cs.length k1 = some (rc + 1) :=
    child_rank hnd hc hk1p hrc (hacy k1 hk1m)
  have hr2 : rkOf cs cs.length k2 = some (rc + 1) :=
    child_rank hnd hc hk2p hrc (hacy k2 hk2m)
  obtain ⟨rx1, hrx1, _, hch1⟩ := reach_chain hd h1
  obtain ⟨rx2, hrx2, _, hch2⟩ := reach_chain hd h2
  have e1 : rx1 = rc + 1 := rkOf_unique hrx1 hr1
  have e2 : rx2 = rc + 1 := rkOf_unique hrx2 hr2
  rw [e1] at hch1
  rw [e2] at hch2
  rw [hch1] at hch2
  exact Option.some.inj hch2

theorem countP_or_split {α : Type} {p q r : α → Bool} :
    ∀ (l : List α), (∀ d ∈ l, p d = (q d || r d)) →
      (∀ d ∈ l, ¬(q d = true ∧ r d = true)) →
      l.countP p = l.countP q + l.countP r := by
  intro l
  induction l with
  | nil => intro _ _; rfl
  | cons a l ih =>
    intro hall hdisj
    rw [List.countP_cons, List.countP_cons, List.countP_cons,
      ih (fun d hd => hall d (List.mem_cons_of_mem a hd))
        (fun d hd => hdisj d (List.mem_cons_of_mem a hd))]
    have hpa := hall a (List.mem_cons_self a l)
    have hda := hdisj a (List.mem_cons_self a l)
    cases hqa : q a with
    | true =>
      cases hra : r a with
      | true => exact absurd ⟨hqa, hra⟩ hda
      | false =>
        rw [hqa, hra] at hpa
        simp only [Bool.or_false] at hpa
        rw [hpa]
        simp
        omega
    | false =>
      cases hra : r a with
      | true =>
        rw [hqa, hra] at hpa
        simp only [Bool.false_or] at hpa
        rw [hpa]
        simp
        omega
      | false =>
        rw [hqa, hra] at hpa
        simp only [Bool.or_false] at hpa
        rw [hpa]
        simp

theorem countP_sum_disjoint {α β : Type} (P : α → β → Bool) :
    ∀ (ks : List β) (es : List α), ks.Nodup →
      (∀ d ∈ es, ∀ (k1 k2 : β), k1 ∈ ks → k2 ∈ ks →
        P d k1 = true → P d k2 = true → k1 = k2) →
      es.countP (fun d => ks.any (fun k => P d k)) =
        (ks.map (fun k => es.countP (fun d => P d k))).sum := by
  intro ks
  induction ks with
  | nil =>
    intro es _ _
    rw [List.countP_congr (q := fun _ => false) (fun x _ => by simp)]
    simp [List.countP_false]
  | cons k ks ih =>
    intro es hnd huniq
    have hsplit : es.countP (fun d => (k :: ks).any (fun k2 => P d k2)) =
        es.countP (fun d => P d k) + es.countP (fun d => ks.any (fun k2 => P d k2)) := by
      refine countP_or_split es (fun d _ => ?_) (fun d hdm => ?_)
      · rfl
      · rintro ⟨hdk, hany⟩
        obtain ⟨k2, hk2, hdk2⟩ := List.any_eq_true.mp hany
        have : k = k2 := huniq d hdm k k2 (List.mem_cons_self k ks)
          (List.mem_cons_of_mem k hk2) hdk hdk2
        rw [this] at hnd
        exact (List.nodup_cons.mp hnd).1 hk2
    rw [hsplit, List.map_cons, List.sum_cons,
      ih es (List.nodup_cons.mp hnd).2
        (fun d hdm k1 k2 h1 h2 hp1 hp2 => huniq d hdm k1 k2
          (List.mem_cons_of_mem k h1) (List.mem_cons_of_mem k h2) hp1 hp2)]

theorem countP_eq_one_unique {α : Type} {p : α → Bool} :
    ∀ {l : List α}, l.Nodup → ∀ {a : α}, a ∈ l → p a = true →
      (∀ b ∈ l, p b = true → b = a) → l.countP p = 1 := by
  intro l
  induction l with
  | nil => intro _ a ha; cases ha
  | cons x l ih =>
    intro hnd a ha hpa huniq
    rw [List.countP_cons]
    rcases List.mem_cons.mp ha with rfl | ha2
    · have h0 : l.countP p = 0 := by
        refine List.countP_eq_zero.mpr (fun b hb hpb => ?_)
        have hba : b = a := huniq b (List.mem_cons_of_mem a hb) hpb
        rw [hba] at hb
        exact (List.nodup_cons.mp hnd).1 hb
      rw [h0, hpa]
      simp
    · have hpx : p x = false := by
        cases hpx2 : p x with
        | false => rfl
        | true =>
          have hxa : x = a := huniq x (List.mem_cons_self x l) hpx2
          rw [hxa] at hnd
          exact absurd ha2 (List.nodup_cons.mp hnd).1
      rw [ih (List.nodup_cons.mp hnd).2 ha2 hpa
        (fun b hb hpb => huniq b (List.mem_cons_of_mem x hb) hpb), hpx]
      simp

theorem sum_map_add {α : Type} (f g : α → Nat) :
    ∀ (l : List α), (l.map (fun x => f x + g x)).sum = (l.map f).sum + (l.map g).sum := by
  intro l
  induction l with
  | nil => rfl
  | cons a l ih =>
    simp only [List.map_cons, List.sum_cons, ih]
    omega

theorem countP_eq_sum_ite {α : Type} (p : α → Bool) :
    ∀ (l : List α), l.countP p = (l.map (fun e => if p e = true then 1 else 0)).sum := by
  intro l
  induction l with
  | nil => rfl
  | cons a l ih =>
    rw [List.countP_cons, List.map_cons, List.sum_cons, ih]
    omega

theorem countP_swap {α β : Type} (P : β → α → Bool) :
    ∀ (rs : List β) (es : List α),
      (rs.map (fun r => es.countP (fun e => P r e))).sum =
        (es.map (fun e => rs.countP (fun r => P r e))).sum := by
  intro rs
  induction rs with
  | nil =>
    intro es
    simp [List.countP_nil]
  | cons r rs ih =>
    intro es
    rw [List.map_cons, List.sum_cons, ih es]
    have hmap : es.map (fun e => (r :: rs).countP (fun r2 => P r2 e)) =
        es.map (fun e => rs.countP (fun r2 => P r2 e) +
          (if P r e = true then 1 else 0)) :=
      List.map_congr_left (fun e _ => List.countP_cons _ _ _)
    rw [hmap, sum_map_add, ← countP_eq_sum_ite]
    rw [show (fun e => P r e) = P r from rfl]
    omega

mutual

theorem treeNodes_length : ∀ (t : CommentTree),
    (treeNodes t).length = 1 + countCommentsInTree t
  | .mk c rs => by
    show (c :: forestNodes rs).length = 1 + countRepliesList rs
    rw [List.length_cons, forestNodes_length rs]
    omega

theorem forestNodes_length : ∀ (ts : List CommentTree),
    (forestNodes ts).length = countRepliesList ts
  | [] => rfl
  | t :: ts => by
    show (treeNodes t ++ forestNodes ts).length =
      (1 + countCommentsInTree t) + countRepliesList ts
    rw [List.length_append, treeNodes_length t, forestNodes_length ts]

end

theorem countTotalComments_eq_sum (ts : List CommentTree) :
    countTotalComments ts = (ts.map (fun t => 1 + countCommentsInTree t)).sum := by
  suffices h : ∀ init, ts.foldl (fun tot t => tot + (1 + countCommentsInTree t)) init =
      init + (ts.map (fun t => 1 + countCommentsInTree t)).sum by
    have := h 0
    simpa [countTotalComments] using this
  induction ts with
  | nil => intro init; simp
  | cons t ts ih =>
    intro init
    rw [List.foldl_cons, ih, List.map_cons, List.sum_cons]
    omega

theorem countRepliesList_eq_sum (ts : List CommentTree) :
    countRepliesList ts = (ts.map (fun t => 1 + countCommentsInTree t)).sum := by
  induction ts with
  | nil => rfl
  | cons t ts ih =>
    show (1 + countCommentsInTree t) + countRepliesList ts = _
    rw [List.map_cons, List.sum_cons, ih]

theorem countTotalComments_eq_nodes (ts : List CommentTree) :
    countTotalComments ts = (forestNodes ts).length := by
  rw [countTotalComments_eq_sum, forestNodes_length ts, countRepliesList_eq_sum]

theorem forall2_map_sum {α β : Type} {R : α → β → Prop} {f : α → Nat} {g2 : β → Nat} :
    ∀ {l : List α} {rs : List β}, List.Forall₂ R l rs →
      (∀ a ∈ l, ∀ b, R a b → g2 b = f a) →
      (rs.map g2).sum = (l.map f).sum := by
  intro l rs h
  induction h with
  | nil => intro _; rfl
  | cons hab htail ih =>
    intro hpt
    rw [List.map_cons, List.map_cons, List.sum_cons, List.sum_cons,
      hpt _ (List.mem_cons_self _ _) _ hab,
      ih (fun a ha b hr => hpt a (List.mem_cons_of_mem _ ha) b hr)]

theorem sum_map_one {α : Type} : ∀ (l : List α), (l.map (fun _ => 1)).sum = l.length := by
  intro l
  induction l with
  | nil => rfl
  | cons a l ih =>
    simp [ih]
    omega

theorem reach_root_exists {cs : List Comment} :
    ∀ {rd : Nat} {d : Comment}, d ∈ cs → rkOf cs cs.length d = some rd →
      ∃ r0, r0 ∈ cs ∧ r0.parentId = none ∧
        reachb cs (cs.length + 1) d r0 = true ∧
        (∀ r2 ∈ cs, r2.parentId = none →
          reachb cs (cs.length + 1) d r2 = true → r2 = r0) := by
  intro rd
  induction rd with
  | zero =>
    intro d hdm hd
    have hp : d.parentId = none := by
      cases hpp : d.parentId with
      | none => rfl
      | some p =>
        obtain ⟨q, r2, _, _, habs⟩ := rkOf_parent_ne_zero hpp hd
        omega
    refine ⟨d, hdm, hp, reach_self d d rfl, ?_⟩
    intro r2 _ _ hr
    rw [reachb_none cs.length r2 hp] at hr
    have hdr : d = r2 := by simpa using hr
    exact hdr.symm
  | succ r ih =>
    intro d hdm hd
    cases hpp : d.parentId with
    | none =>
      obtain ⟨n, hn⟩ : ∃ n, cs.length = n + 1 := ⟨cs.length - 1, by
        have := List.length_pos.mpr (List.ne_nil_of_mem hdm)
        omega⟩
      rw [hn, rkOf_none n hpp] at hd
      have := Option.some.inj hd
      omega
    | some p =>
      obtain ⟨q, r2, hq, hr2, hplus⟩ := rkOf_parent_ne_zero hpp hd
      have hr2r : r2 = r := by omega
      have hqN : rkOf cs cs.length q = some r := by
        rw [← hr2r]
        exact rkOf_stable hr2 (by have := rkOf_lt hr2; omega)
      have hrlt := rkOf_lt hqN
      have hqm : q ∈ cs := List.mem_of_find?_eq_some hq
      obtain ⟨r0, hr0m, hr0n, hreach, huniq⟩ := ih hqm hqN
      have hstab := @reach_stable cs r q hqN r0 cs.length (cs.length + 1)
        (by omega) (by omega)
      refine ⟨r0, hr0m, hr0n, reach_or_right hpp hq (by rw [hstab]; exact hreach), ?_⟩
      intro r3 hr3m hr3n hr3
      rw [reachb_step cs.length r3 hpp hq] at hr3
      rcases (Bool.or_eq_true _ _).mp hr3 with hdr | hstep
      · have hdr2 : d = r3 := by simpa using hdr
        rw [← hdr2, hpp] at hr3n
        cases hr3n
      · have hstab2 := @reach_stable cs r q hqN r3 cs.length (cs.length + 1)
          (by omega) (by omega)
        exact huniq r3 hr3m hr3n (by rw [← hstab2]; exact hstep)

theorem subtree_count_eq_reach (cs : List Comment)
    (hnd : (cs.map Comment.id).Nodup)
    (hacy : ∀ x ∈ cs, (rkOf cs cs.length x).isSome = true) :
    ∀ (g : Nat) (c : Comment) (rc : Nat), c ∈ cs →
      rkOf cs cs.length c = some rc → cs.length ≤ rc + g →
      ∃ t, buildCommentSubtree g c cs = some t ∧
        1 + countCommentsInTree t =
          cs.countP (fun d => reachb cs (cs.length + 1) d c) := by
  intro g
  induction g with
  | zero =>
    intro c rc hc hrc hg
    have := rkOf_lt hrc
    omega
  | succ g ih =>
    intro c rc hc hrc hg
    have hkid : ∀ k ∈ childrenOf cs c.id,
        ∃ t, buildCommentSubtree g k cs = some t ∧
          1 + countCommentsInTree t =
            cs.countP (fun d => reachb cs (cs.length + 1) d k) := by
      intro k hk
      obtain ⟨hkm, hkp⟩ := mem_childrenOf.mp hk
      have hrk : rkOf cs cs.length k = some (rc + 1) :=
        child_rank hnd hc hkp hrc (hacy k hkm)
      exact ih k (rc + 1) hkm hrk (by omega)
    have hsome : ∀ k ∈ childrenOf cs c.id,
        (buildCommentSubtree g k cs).isSome = true := by
      intro k hk
      obtain ⟨t, ht, _⟩ := hkid k hk
      rw [ht]
      rfl
    obtain ⟨rs, hrs⟩ := optList_isSome _ _ hsome
    have hf2 := (optList_forall2 _ _ _).mp hrs
    refine ⟨CommentTree.mk c rs, buildSubtree_succ_iff.mpr ⟨rs, hf2, rfl⟩, ?_⟩
    have hcount : countCommentsInTree (CommentTree.mk c rs) =
        ((childrenOf cs c.id).map
          (fun k => cs.countP (fun d => reachb cs (cs.length + 1) d k))).sum := by
      show countRepliesList rs = _
      rw [countRepliesList_eq_sum]
      refine forall2_map_sum hf2 (fun k hkmem tk hbuild => ?_)
      obtain ⟨t2, ht2, hcnt⟩ := hkid k hkmem
      rw [ht2] at hbuild
      rw [← Option.some.inj hbuild]
      exact hcnt
    have hone : cs.countP (fun d => d == c) = 1 := by
      refine countP_eq_one_unique (hnd.of_map Comment.id) hc (by simp) ?_
      intro b _ hb
      simpa using hb
    have hsplit : cs.countP (fun d => reachb cs (cs.length + 1) d c) =
        cs.countP (fun d => d == c) +
        cs.countP (fun d => (childrenOf cs c.id).any
          (fun k => reachb cs (cs.length + 1) d k)) := by
      refine countP_or_split cs (fun d hdm => ?_) (fun d hdm => ?_)
      · rw [Bool.eq_iff_iff]
        obtain ⟨rd, hrd⟩ := Option.isSome_iff_exists.mp (hacy d hdm)
        constructor
        · intro hr
          by_cases hdc : d = c
          · rw [hdc]
            simp
          · obtain ⟨k, hk, hrk⟩ := reach_split hnd hc hdm hrd hr hdc
            refine (Bool.or_eq_true _ _).mpr (Or.inr ?_)
            exact List.any_eq_true.mpr ⟨k, hk, hrk⟩
        · intro hr
          rcases (Bool.or_eq_true _ _).mp hr with hdc | hany
          · have : d = c := by simpa using hdc
            exact reach_self d c this
          · obtain ⟨k, hk, hrk⟩ := List.any_eq_true.mp hany
            obtain ⟨hkm, hkp⟩ := mem_childrenOf.mp hk
            exact reach_extend hnd hc hkp hrd hrk
      · rintro ⟨hdc, hany⟩
        have hdceq : d = c := by simpa using hdc
        obtain ⟨k, hk, hrk⟩ := List.any_eq_true.mp hany
        obtain ⟨hkm, hkp⟩ := mem_childrenOf.mp hk
        have hrk2 : rkOf cs cs.length k = some (rc + 1) :=
          child_rank hnd hc hkp hrc (hacy k hkm)
        have hle : rc + 1 ≤ rc := by
          have hrd2 : rkOf cs cs.length d = some rc := by
            rw [hdceq]
            exact hrc
          exact reach_rank_le hrd2 hrk2 hrk
        omega
    have hdisj : cs.countP (fun d => (childrenOf cs c.id).any
        (fun k => reachb cs (cs.length + 1) d k)) =
        ((childrenOf cs c.id).map
          (fun k => cs.countP (fun d => reachb cs (cs.length + 1) d k))).sum := by
      refine countP_sum_disjoint _ (childrenOf cs c.id) cs
        (List.Nodup.filter _ (hnd.of_map Comment.id)) ?_
      intro d hdm k1 k2 hk1 hk2 hp1 hp2
      obtain ⟨rd, hrd⟩ := Option.isSome_iff_exists.mp (hacy d hdm)
      exact reach_child_unique hnd hc hk1 hk2 hrc hacy hrd hp1 hp2
    rw [hsplit, hone, hdisj, hcount]

/-- C3 (amended): for every comment list with distinct identities whose
parent references are all present and acyclic (every parent chain reaches a
root within `length` steps), the builder succeeds and the total-count
aggregation equals the input size; in general, for any forest, the
total-count equals the number of nodes of the forest (the reachable
comments).  Without acyclicity the first equality fails: a parent cycle has
no orphaned parents yet its comments never enter the forest (see the
companion counterexample). -/
theorem countTotalComments_eq_length_of_acyclic (cs : List Comment)
    (hnd : (cs.map Comment.id).Nodup)
    (hpres : parentsPresentB cs = true)
    (hacyB : acyclicB cs = true) :
    (∃ forest, buildCommentTree cs = some forest ∧
      countTotalComments forest = cs.length) ∧
    (∀ ts : List CommentTree, countTotalComments ts = (forestNodes ts).length) := by
  refine ⟨?_, countTotalComments_eq_nodes⟩
  have hacy : ∀ x ∈ cs, (rkOf cs cs.length x).isSome = true := by
    intro x hx
    exact List.all_eq_true.mp
      (show cs.all (fun c => (rkOf cs cs.length c).isSome) = true from hacyB) x hx
  have hvals := commentMapValues_eq_self hnd
  have hroot : ∀ r ∈ topLevelOf cs,
      ∃ t, buildCommentSubtree (cs.length + 1) r cs = some t ∧
        1 + countCommentsInTree t =
          cs.countP (fun d => reachb cs (cs.length + 1) d r) := by
    intro r hr
    obtain ⟨hrm, hrn⟩ := List.mem_filter.mp hr
    have hrnone : r.parentId = none := Option.isNone_iff_eq_none.mp hrn
    obtain ⟨n, hn⟩ : ∃ n, cs.length = n + 1 := ⟨cs.length - 1, by
      have := List.length_pos.mpr (List.ne_nil_of_mem hrm)
      omega⟩
    have hr0 : rkOf cs cs.length r = some 0 := by
      rw [hn]
      exact rkOf_none n hrnone
    exact subtree_count_eq_reach cs hnd hacy (cs.length + 1) r 0 hrm hr0 (by omega)
  have hsome : ∀ r ∈ topLevelOf cs,
      (buildCommentSubtree (cs.length + 1) r cs).isSome = true := by
    intro r hr
    obtain ⟨t, ht, _⟩ := hroot r hr
    rw [ht]
    rfl
  obtain ⟨forest, hforest⟩ := optList_isSome _ _ hsome
  have hf2 := (optList_forall2 _ _ _).mp hforest
  refine ⟨forest, ?_, ?_⟩
  · unfold buildCommentTree buildForest
    rw [hvals]
    exact hforest
  · rw [countTotalComments_eq_sum]
    have hsum1 : (forest.map (fun t => 1 + countCommentsInTree t)).sum =
        ((topLevelOf cs).map
          (fun r => cs.countP (fun d => reachb cs (cs.length + 1) d r))).sum := by
      refine forall2_map_sum hf2 (fun r hrm t hbuild => ?_)
      obtain ⟨t2, ht2, hcnt⟩ := hroot r hrm
      rw [ht2] at hbuild
      rw [← Option.some.inj hbuild]
      exact hcnt
    rw [hsum1, countP_swap]
    have hper : ∀ d ∈ cs,
        (topLevelOf cs).countP (fun r => reachb cs (cs.length + 1) d r) = 1 := by
      intro d hdm
      obtain ⟨rd, hrd⟩ := Option.isSome_iff_exists.mp (hacy d hdm)
      obtain ⟨r0, hr0m, hr0n, hreach, huniq⟩ := reach_root_exists hdm hrd
      refine countP_eq_one_unique (List.Nodup.filter _ (hnd.of_map Comment.id))
        (List.mem_filter.mpr ⟨hr0m, by rw [hr0n]; rfl⟩) hreach ?_
      intro b hb hpb
      obtain ⟨hbm, hbn⟩ := List.mem_filter.mp hb
      exact huniq b hbm (Option.isNone_iff_eq_none.mp hbn) hpb
    rw [List.map_congr_left hper]
    exact sum_map_one cs

/-- C3 witness: the spec scenario (chain 1 → 2 → 3 plus root 4) has distinct
identities, present parents and acyclic chains, and counts to 4. -/
theorem countTotalComments_eq_length_of_acyclic_witness :
    ∃ forest, buildCommentTree c3scenario = some forest ∧
      countTotalComments forest = c3scenario.length :=
  (countTotalComments_eq_length_of_acyclic c3scenario
    (by decide) (by decide) (by decide)).1

theorem mem_sortByCreatedDesc {q : Post} {l : List Post} :
    q ∈ sortByCreatedDesc l ↔ q ∈ l :=
  (List.perm_insertionSort _ l).mem_iff

theorem joinedPosts_mem {db : DBState} {keep : UserRow → Bool} {q : Post} :
    q ∈ joinedPosts db keep ↔
      ∃ p ∈ db.posts, ∃ u, findUser db p.userId = some u ∧ keep u = true ∧
        ∃ c, findCategory db p.categoryId = some c ∧ annotatePost db p u c = q := by
  unfold joinedPosts
  rw [List.mem_filterMap]
  constructor
  · rintro ⟨p, hp, hf⟩
    split at hf
    next => cases hf
    next u hu =>
      split at hf
      next hk =>
        split at hf
        next => cases hf
        next c hc => exact ⟨p, hp, u, hu, hk, c, hc, Option.some.inj hf⟩
      next hk => cases hf
  · rintro ⟨p, hp, u, hu, hk, c, hc, hq⟩
    refine ⟨p, hp, ?_⟩
    simp only [hu, hk, if_true, hc]
    rw [hq]

/-- C1 (amended): only the scope=all listing applies the suspension filter.
With `includeSuspended = false` the all scope returns only posts whose joined
author has status `active` (hence never a suspended author's post), and with
`true` it returns every joined post.  The by-category, by-author and liked-by
listings take no suspension parameter at all and return the joined posts of
their scope regardless of the author's status (a suspended author's post is
included; see the companion counterexample). -/
theorem listPosts_suspension_scope_contract :
    (∀ (db : DBState) (q : Post), q ∈ listPosts db Scope.all false →
      ∀ u, findUser db q.userId = some u → u.status = "active") ∧
    (∀ (db : DBState) (p : PostRow) (u : UserRow) (c : CategoryRow),
      p ∈ db.posts → findUser db p.userId = some u →
      findCategory db p.categoryId = some c →
      annotatePost db p u c ∈ listPosts db Scope.all true) ∧
    (∀ (db : DBState) (p : PostRow) (u : UserRow) (c : CategoryRow),
      p ∈ db.posts → findUser db p.userId = some u →
      findCategory db p.categoryId = some c →
      annotatePost db p u c ∈ listPosts db (Scope.category p.categoryId) false ∧
      annotatePost db p u c ∈ listPosts db (Scope.author p.userId) false) ∧
    (∀ (db : DBState) (p : PostRow) (u : UserRow) (c : CategoryRow) (uid : Int),
      p ∈ db.posts → findUser db p.userId = some u →
      findCategory db p.categoryId = some c →
      db.postLikes.any (fun l => l.postId == p.id && l.userId == uid && l.isLike) = true →
      annotatePost db p u c ∈ listPosts db (Scope.likedBy uid) false) := by
  refine ⟨?_, ?_, ?_, ?_⟩
  · intro db q hq u hu
    have hj := joinedPosts_mem.mp (mem_sortByCreatedDesc.mp hq)
    obtain ⟨p, hp, u2, hu2, hk, c, hc, hqe⟩ := hj
    have hst : u2.status = "active" := by
      simpa using hk
    have hqid : q.userId = p.userId := by
      rw [← hqe]
      rfl
    rw [hqid, hu2] at hu
    rw [← Option.some.inj hu]
    exact hst
  · intro db p u c hp hu hc
    refine mem_sortByCreatedDesc.mpr (joinedPosts_mem.mpr ⟨p, hp, u, hu, ?_, c, hc, rfl⟩)
    simp
  · intro db p u c hp hu hc
    constructor
    · refine mem_sortByCreatedDesc.mpr (List.mem_filter.mpr ⟨?_, ?_⟩)
      · exact joinedPosts_mem.mpr ⟨p, hp, u, hu, rfl, c, hc, rfl⟩
      · simp [annotatePost]
    · refine mem_sortByCreatedDesc.mpr (List.mem_filter.mpr ⟨?_, ?_⟩)
      · exact joinedPosts_mem.mpr ⟨p, hp, u, hu, rfl, c, hc, rfl⟩
      · simp [annotatePost]
  · intro db p u c uid hp hu hc hlike
    refine mem_sortByCreatedDesc.mpr (List.mem_filter.mpr ⟨?_, ?_⟩)
    · exact joinedPosts_mem.mpr ⟨p, hp, u, hu, rfl, c, hc, rfl⟩
    · exact hlike

/-- C1 witness: in `dbC9` (active authors) the all scope with the filter on
yields an active author; in `dbC1` the suspended author's post is returned by
the category and liked-by scopes even with `includeSuspended = false`. -/
theorem listPosts_suspension_scope_contract_witness :
    (⟨1, "u", "u@example.com", "user", "active"⟩ : UserRow).status = "active" ∧
    annotatePost dbC1 ⟨1, "title1", "body1", 1, 1, 10, 10⟩
        ⟨1, "alice", "alice@example.com", "user", "suspended"⟩ ⟨1, "general"⟩ ∈
      listPosts dbC1 (Scope.category 1) false ∧
    annotatePost dbC1 ⟨1, "title1", "body1", 1, 1, 10, 10⟩
        ⟨1, "alice", "alice@example.com", "user", "suspended"⟩ ⟨1, "general"⟩ ∈
      listPosts dbC1 (Scope.likedBy 2) false := by
  have h := listPosts_suspension_scope_contract
  refine ⟨?_, ?_, ?_⟩
  · exact h.1 dbC9
      (annotatePost dbC9 ⟨1, "postU", "", 1, 1, 0, 0⟩
        ⟨1, "u", "u@example.com", "user", "active"⟩ ⟨1, "general"⟩)
      (by decide) ⟨1, "u", "u@example.com", "user", "active"⟩ (by decide)
  · exact (h.2.2.1 dbC1 ⟨1, "title1", "body1", 1, 1, 10, 10⟩
      ⟨1, "alice", "alice@example.com", "user", "suspended"⟩ ⟨1, "general"⟩
      (by decide) (by decide) (by decide)).1
  · exact h.2.2.2 dbC1 ⟨1, "title1", "body1", 1, 1, 10, 10⟩
      ⟨1, "alice", "alice@example.com", "user", "suspended"⟩ ⟨1, "general"⟩ 2
      (by decide) (by decide) (by decide) (by decide)

end Forum
